import Mathlib

/-!
Verification of the JSON-backed persistence/economy layer of the repository
(`era/gdata.py`, the chat-command dispatcher in `bascenev1/_hooks.py`, and the
leaderboard/league updates in `bascenev1/_dualteamsession.py`).

The Python code is shallowly embedded: JSON documents become the inductive
type `JVal`, Python dicts become insertion-ordered association lists, Python
exceptions become `Except`/`Option` results, and `time.time()` becomes an
explicit rational parameter.  Every definition is translated from the source;
comments cite the file and function it embeds.
-/

namespace GData

/-- The expiring-entry separator U+241F used throughout the code
(`'␟'` in `gdata.py` and `_hooks.py`). -/
def jsep : Char := '␟'

/-- Python `str.split(c)` for a single-character separator, on the underlying
character list.  `csplit c [] = [[]]` matches Python `"".split(c) == ['']`. -/
def csplit (c : Char) : List Char → List (List Char)
  | [] => [[]]
  | x :: xs =>
    match csplit c xs with
    | h :: t => if x = c then [] :: h :: t else (x :: h) :: t
    | [] => if x = c then [[], []] else [[x]]

/-- Python `s.split(c)` for a single-character separator `c`. -/
def pysplit (c : Char) (s : String) : List String :=
  (csplit c s.data).map fun cs => ⟨cs⟩

theorem csplit_ne_nil (c : Char) (l : List Char) : csplit c l ≠ [] := by
  cases l with
  | nil => simp [csplit]
  | cons x xs =>
    unfold csplit
    cases h : csplit c xs with
    | nil => dsimp only; split <;> simp
    | cons a t => dsimp only; split <;> simp

theorem pysplit_ne_nil (c : Char) (s : String) : pysplit c s ≠ [] := by
  simpa [pysplit] using csplit_ne_nil c s.data

/-! ### Python `float(...)` on strings

`_update_str` calls `float(ss[1])`; a non-numeric suffix raises `ValueError`.
We model the parse as an `Option ℚ`: decimal notation with optional
surrounding whitespace, optional sign, integer/fraction digits and an
optional exponent.  (Exotic accepted spellings such as `inf`, `nan` and
digit-group underscores are outside the modeled fragment; no claim uses
them.) -/

/-- Whitespace stripped by Python `float()`. -/
def isPySpace (c : Char) : Bool :=
  c = ' ' || c = '\t' || c = '\n' || c = '\r' || c = '\x0b' || c = '\x0c'

/-- Split a leading run of decimal digits. -/
def takeDigits : List Char → List Char × List Char
  | [] => ([], [])
  | c :: cs =>
    if c.isDigit then
      let (d, r) := takeDigits cs
      (c :: d, r)
    else ([], c :: cs)

/-- Numeric value of a digit run. -/
def digitsVal (ds : List Char) : Nat :=
  ds.foldl (fun a c => a * 10 + (c.toNat - 48)) 0

/-- Parse the mantissa `digits[.digits]`; at least one digit is required
(Python accepts `"5."` and `".5"` but not `"."`). -/
def parseMantissa (cs : List Char) : Option (ℚ × List Char) :=
  let (ip, r1) := takeDigits cs
  match r1 with
  | '.' :: rest =>
    let (fp, r2) := takeDigits rest
    if ip.isEmpty && fp.isEmpty then none
    else some ((digitsVal ip : ℚ) + (digitsVal fp : ℚ) / (10 : ℚ) ^ fp.length, r2)
  | _ => if ip.isEmpty then none else some ((digitsVal ip : ℚ), r1)

/-- Parse what follows `e`/`E`: an optionally signed nonempty digit run. -/
def parseExpTail (cs : List Char) : Option ℤ :=
  let (sgn, ds) : ℤ × List Char :=
    match cs with
    | '+' :: r => (1, r)
    | '-' :: r => (-1, r)
    | r => (1, r)
  if ds.isEmpty || !ds.all Char.isDigit then none
  else some (sgn * (digitsVal ds : ℤ))

/-- Parse an unsigned float literal (mantissa plus optional exponent). -/
def parseUnsigned (cs : List Char) : Option ℚ :=
  match parseMantissa cs with
  | none => none
  | some (m, rest) =>
    match rest with
    | [] => some m
    | c :: r =>
      if c = 'e' || c = 'E' then (parseExpTail r).map fun e => m * (10 : ℚ) ^ e
      else none

/-- Python `float(s)` for a string: `none` models `ValueError`. -/
def pyFloat (s : String) : Option ℚ :=
  let cs := (s.data.dropWhile isPySpace).reverse.dropWhile isPySpace |>.reverse
  match cs with
  | '+' :: r => parseUnsigned r
  | '-' :: r => (parseUnsigned r).map Neg.neg
  | r => parseUnsigned r

/-! ### JSON documents -/

/-- A JSON value as produced by `json.loads` in `gdata.load`: Python dicts are
insertion-ordered association lists, Python `None` is `jnull`, and all JSON
numbers are modeled as rationals. -/
inductive JVal where
  | jnull
  | jbool (b : Bool)
  | jnum (q : ℚ)
  | jstr (s : String)
  | jarr (xs : List JVal)
  | jobj (kvs : List (String × JVal))

/-- Python `v is None` (JSON `null`). -/
def JVal.isNull : JVal → Bool
  | .jnull => true
  | _ => false

/-! ### The expiry normalizer (`gdata._update` / `_update_dict` / `_update_list`
/ `_update_str`)

`_update_str` raises `ValueError` when `float(ss[1])` fails, so each function
returns in `Except Unit`; `.error ()` is the propagating exception.  -/

/-- `gdata._update_str` at current time `t`:
```
ss = s.split('␟')
if len(ss) != 1:
    s = None if time.time() > float(ss[1]) else s
return s
```
The `Option` result distinguishes a retained string from Python `None`. -/
def update_str (t : ℚ) (s : String) : Except Unit (Option String) :=
  let ss := pysplit jsep s
  if ss.length ≠ 1 then
    match pyFloat (ss.getD 1 "") with
    | none => .error ()
    | some d => .ok (if t > d then none else some s)
  else .ok (some s)

mutual

/-- `gdata._update`: dispatch on the runtime type; dicts and lists recurse,
strings expire, everything else is returned unchanged.  An expired top-level
string becomes Python `None`, i.e. `jnull`. -/
def update_val (t : ℚ) : JVal → Except Unit JVal
  | .jobj kvs =>
    match update_dict t kvs with
    | .error e => .error e
    | .ok kvs' => .ok (.jobj kvs')
  | .jarr xs =>
    match update_list t xs with
    | .error e => .error e
    | .ok xs' => .ok (.jarr xs')
  | .jstr s =>
    match update_str t s with
    | .error e => .error e
    | .ok (some s') => .ok (.jstr s')
    | .ok none => .ok .jnull
  | v => .ok v

/-- `gdata._update_dict`: each member is processed by the same `isinstance`
dispatch that `_update` performs (the source inlines it), and members whose
processed value is Python `None` are dropped (`if v is not None`).  This
drops both expired strings and original `null` members. -/
def update_dict (t : ℚ) : List (String × JVal) → Except Unit (List (String × JVal))
  | [] => .ok []
  | (k, v) :: rest =>
    match update_val t v with
    | .error e => .error e
    | .ok w =>
      match update_dict t rest with
      | .error e => .error e
      | .ok tail => .ok (if w.isNull then tail else (k, w) :: tail)

/-- `gdata._update_list`: same member processing as `_update_dict`, elements
whose processed value is `None` are omitted. -/
def update_list (t : ℚ) : List JVal → Except Unit (List JVal)
  | [] => .ok []
  | v :: rest =>
    match update_val t v with
    | .error e => .error e
    | .ok w =>
      match update_list t rest with
      | .error e => .error e
      | .ok tail => .ok (if w.isNull then tail else w :: tail)

end

/-! ### Basic facts about the normalizer -/

theorem update_str_some {t : ℚ} {s s₂ : String}
    (h : update_str t s = .ok (some s₂)) : s₂ = s := by
  simp only [update_str] at h
  split at h
  · cases hf : pyFloat ((pysplit jsep s).getD 1 "") with
    | none => rw [hf] at h; simp at h
    | some d =>
      rw [hf] at h
      dsimp only at h
      split at h <;> simp_all
  · simp_all

/-- `_update_dict` distributes over concatenation of the member list. -/
theorem update_dict_append {t : ℚ} {l₁ l₂ o₁ o₂ : List (String × JVal)}
    (h₁ : update_dict t l₁ = .ok o₁) (h₂ : update_dict t l₂ = .ok o₂) :
    update_dict t (l₁ ++ l₂) = .ok (o₁ ++ o₂) := by
  induction l₁ generalizing o₁ with
  | nil =>
    simp only [update_dict] at h₁
    cases h₁
    simpa using h₂
  | cons kv rest ih =>
    obtain ⟨k, v⟩ := kv
    rw [List.cons_append]
    simp only [update_dict, List.append_eq] at h₁ ⊢
    cases hv : update_val t v with
    | error e => rw [hv] at h₁; simp at h₁
    | ok w =>
      rw [hv] at h₁
      cases hr : update_dict t rest with
      | error e => rw [hr] at h₁; simp at h₁
      | ok tail =>
        rw [hr] at h₁
        rw [ih hr]
        dsimp only at h₁ ⊢
        cases h₁
        by_cases hn : w.isNull <;> simp [hn]

/-- `_update_list` distributes over concatenation of the element list. -/
theorem update_list_append {t : ℚ} {l₁ l₂ o₁ o₂ : List JVal}
    (h₁ : update_list t l₁ = .ok o₁) (h₂ : update_list t l₂ = .ok o₂) :
    update_list t (l₁ ++ l₂) = .ok (o₁ ++ o₂) := by
  induction l₁ generalizing o₁ with
  | nil =>
    simp only [update_list] at h₁
    cases h₁
    simpa using h₂
  | cons v rest ih =>
    rw [List.cons_append]
    simp only [update_list, List.append_eq] at h₁ ⊢
    cases hv : update_val t v with
    | error e => rw [hv] at h₁; simp at h₁
    | ok w =>
      rw [hv] at h₁
      cases hr : update_list t rest with
      | error e => rw [hr] at h₁; simp at h₁
      | ok tail =>
        rw [hr] at h₁
        rw [ih hr]
        dsimp only at h₁ ⊢
        cases h₁
        by_cases hn : w.isNull <;> simp [hn]

/-- An expiring string `"x␟d"` is kept by `_update_str` iff `t ≤ d`. -/
theorem update_str_sep {t d : ℚ} {s x dstr : String}
    (hsplit : pysplit jsep s = [x, dstr]) (hd : pyFloat dstr = some d) :
    update_str t s = .ok (if t ≤ d then some s else none) := by
  rcases le_or_lt t d with hle | hlt
  · simp [update_str, hsplit, hd, not_lt.mpr hle, hle]
  · simp [update_str, hsplit, hd, hlt, not_le.mpr hlt]

/-! ### Idempotence of the normalizer -/

mutual

/-- Normalizing an already-normalized value is a no-op. -/
theorem update_val_idem (t : ℚ) (v w : JVal) (h : update_val t v = .ok w) :
    update_val t w = .ok w := by
  cases v with
  | jobj kvs =>
    simp only [update_val] at h
    cases hk : update_dict t kvs with
    | error e => rw [hk] at h; simp at h
    | ok kvs2 =>
      rw [hk] at h
      dsimp only at h
      cases h
      simp only [update_val]
      rw [update_dict_idem t kvs kvs2 hk]
  | jarr xs =>
    simp only [update_val] at h
    cases hk : update_list t xs with
    | error e => rw [hk] at h; simp at h
    | ok xs2 =>
      rw [hk] at h
      dsimp only at h
      cases h
      simp only [update_val]
      rw [update_list_idem t xs xs2 hk]
  | jstr s =>
    simp only [update_val] at h
    cases hs : update_str t s with
    | error e => rw [hs] at h; simp at h
    | ok o =>
      rw [hs] at h
      cases o with
      | none => dsimp only at h; cases h; simp [update_val]
      | some s2 =>
        dsimp only at h
        cases h
        have hss : s2 = s := update_str_some hs
        subst hss
        simp only [update_val]
        rw [hs]
  | jnull => simp only [update_val] at h; cases h; simp [update_val]
  | jbool b => simp only [update_val] at h; cases h; simp [update_val]
  | jnum q => simp only [update_val] at h; cases h; simp [update_val]

/-- Re-running `_update_dict` on its own output is a no-op. -/
theorem update_dict_idem (t : ℚ) (l out : List (String × JVal))
    (h : update_dict t l = .ok out) : update_dict t out = .ok out := by
  cases l with
  | nil => simp only [update_dict] at h; cases h; simp [update_dict]
  | cons kv rest =>
    obtain ⟨k, v⟩ := kv
    simp only [update_dict] at h
    cases hv : update_val t v with
    | error e => rw [hv] at h; simp at h
    | ok w =>
      rw [hv] at h
      cases hr : update_dict t rest with
      | error e => rw [hr] at h; simp at h
      | ok tail =>
        rw [hr] at h
        dsimp only at h
        cases h
        by_cases hn : w.isNull
        · rw [if_pos hn]
          exact update_dict_idem t rest tail hr
        · rw [if_neg hn]
          simp only [update_dict]
          rw [update_val_idem t v w hv]
          rw [update_dict_idem t rest tail hr]
          dsimp only
          rw [if_neg hn]

/-- Re-running `_update_list` on its own output is a no-op. -/
theorem update_list_idem (t : ℚ) (l out : List JVal)
    (h : update_list t l = .ok out) : update_list t out = .ok out := by
  cases l with
  | nil => simp only [update_list] at h; cases h; simp [update_list]
  | cons v rest =>
    simp only [update_list] at h
    cases hv : update_val t v with
    | error e => rw [hv] at h; simp at h
    | ok w =>
      rw [hv] at h
      cases hr : update_list t rest with
      | error e => rw [hr] at h; simp at h
      | ok tail =>
        rw [hr] at h
        dsimp only at h
        cases h
        by_cases hn : w.isNull
        · rw [if_pos hn]
          exact update_list_idem t rest tail hr
        · rw [if_neg hn]
          simp only [update_list]
          rw [update_val_idem t v w hv]
          rw [update_list_idem t rest tail hr]
          dsimp only
          rw [if_neg hn]

end


/-! ### Claims C1 and C2 -/

/-- **C1 (counterexample).**  The claim states that non-string values pass
through normalization unchanged.  But `_update_dict` drops a member whose
value is JSON `null` (`if v is not None` cannot tell an original `null`
member from a removed expired entry), so the document `{"k": null}`
normalizes to `{}`: the non-string value `null` did not pass through. -/
theorem c1_null_member_cex :
    update_val 0 (.jobj [("k", .jnull)]) = .ok (.jobj []) ∧
    JVal.jobj ([] : List (String × JVal)) ≠ .jobj [("k", .jnull)] :=
  ⟨rfl, by simp⟩

/-- **C1 (amended).**  For a string `s` of the form `"x␟d"` (one U+241F
separator, suffix parsing as the number `d`), `_update_str` at time `t`
keeps `s` iff `t ≤ d` and replaces it by `None` iff `t > d`; inside a dict
the key is deleted and inside a list the element is omitted exactly when
`t > d`; separator-free strings and non-string, non-null scalar values pass
through unchanged (null members of containers are dropped, see the
counterexample). -/
theorem c1_expiry_correctness (t d : ℚ) (s x dstr : String)
    (hsplit : pysplit jsep s = [x, dstr]) (hd : pyFloat dstr = some d) :
    update_str t s = .ok (if t ≤ d then some s else none)
    ∧ (∀ (k : String) (pre post preOut postOut : List (String × JVal)),
        update_dict t pre = .ok preOut → update_dict t post = .ok postOut →
        update_dict t (pre ++ (k, .jstr s) :: post) =
          .ok (preOut ++ (if t ≤ d then [(k, .jstr s)] else []) ++ postOut))
    ∧ (∀ (pre post preOut postOut : List JVal),
        update_list t pre = .ok preOut → update_list t post = .ok postOut →
        update_list t (pre ++ .jstr s :: post) =
          .ok (preOut ++ (if t ≤ d then [.jstr s] else []) ++ postOut))
    ∧ (∀ s₂ : String, (pysplit jsep s₂).length = 1 → update_str t s₂ = .ok (some s₂))
    ∧ (∀ q : ℚ, update_val t (.jnum q) = .ok (.jnum q))
    ∧ (∀ b : Bool, update_val t (.jbool b) = .ok (.jbool b)) := by
  have hstr : update_str t s = .ok (if t ≤ d then some s else none) :=
    update_str_sep hsplit hd
  have hmidd : ∀ k : String, update_dict t [(k, .jstr s)] =
      .ok (if t ≤ d then [(k, .jstr s)] else []) := by
    intro k
    rcases le_or_lt t d with hle | hlt
    · have hks : update_str t s = .ok (some s) := by rw [hstr, if_pos hle]
      simp [update_dict, update_val, hks, JVal.isNull, hle]
    · have hks : update_str t s = .ok none := by
        rw [hstr, if_neg (not_le.mpr hlt)]
      simp [update_dict, update_val, hks, JVal.isNull, not_le.mpr hlt]
  have hmidl : update_list t [.jstr s] = .ok (if t ≤ d then [.jstr s] else []) := by
    rcases le_or_lt t d with hle | hlt
    · have hks : update_str t s = .ok (some s) := by rw [hstr, if_pos hle]
      simp [update_list, update_val, hks, JVal.isNull, hle]
    · have hks : update_str t s = .ok none := by
        rw [hstr, if_neg (not_le.mpr hlt)]
      simp [update_list, update_val, hks, JVal.isNull, not_le.mpr hlt]
  refine ⟨hstr, ?_, ?_, ?_, fun q => rfl, fun b => rfl⟩
  · intro k pre post preOut postOut hpre hpost
    have h2 := update_dict_append hpre (update_dict_append (hmidd k) hpost)
    simpa [List.append_assoc] using h2
  · intro pre post preOut postOut hpre hpost
    have h2 := update_list_append hpre (update_list_append hmidl hpost)
    simpa [List.append_assoc] using h2
  · intro s₂ hlen
    simp [update_str, hlen]

/-- **C1 (witness).** -/
theorem c1_expiry_correctness_witness :
    update_str 13 "x␟12" = .ok none ∧ update_str 11 "x␟12" = .ok (some "x␟12") := by
  constructor
  · have h := (c1_expiry_correctness 13 12 "x␟12" "x" "12" (by decide) (by decide)).1
    rw [if_neg (by norm_num : ¬ (13 : ℚ) ≤ 12)] at h
    exact h
  · have h := (c1_expiry_correctness 11 12 "x␟12" "x" "12" (by decide) (by decide)).1
    rw [if_pos (by norm_num : (11 : ℚ) ≤ 12)] at h
    exact h

/-- **C2.**  The expiry normalizer is idempotent: if normalizing `D` at a
fixed time `t` succeeds with `D₂`, then normalizing `D₂` at `t` returns `D₂`
unchanged. -/
theorem c2_normalize_idempotent (t : ℚ) (D D₂ : JVal)
    (h : update_val t D = .ok D₂) : update_val t D₂ = .ok D₂ :=
  update_val_idem t D D₂ h

/-- **C2 (witness).** -/
theorem c2_normalize_idempotent_witness :
    update_val 13 (.jobj [("k", .jstr "x␟12"), ("m", .jnum 5)]) =
      .ok (.jobj [("m", .jnum 5)]) ∧
    update_val 13 (.jobj [("m", .jnum 5)]) = .ok (.jobj [("m", .jnum 5)]) :=
  ⟨rfl, c2_normalize_idempotent 13 (.jobj [("k", .jstr "x␟12"), ("m", .jnum 5)])
    (.jobj [("m", .jnum 5)]) rfl⟩


/-! ### `gdata.load` (file read, normalize, write back, drill into keys)

```
def load(gorl, *args, update=True):
    if os.path.exists(gorl): stats = json.loads(f.read())
    else: return None
    if update:
        stats = _update(stats)
        write(gorl, stats)
    for x in args:
        try: stats = stats[x]
        except KeyError: return None
    return stats
```
The file system is abstracted to `Option JVal` (the parsed content of the
file, or `none` when the path does not exist).  All in-repo call sites pass
string keys, so `args` is a `List String`.  The write-back only persists the
normalized value that `load` goes on to drill into, so it is not modeled
separately. -/

/-- Python exceptions that can escape or be caught inside `load`. -/
inductive PyErr where
  | keyError
  | typeError
  | valueError
  deriving DecidableEq

/-- Python dict subscript on an insertion-ordered association list. -/
def alook (k : String) : List (String × JVal) → Option JVal
  | [] => none
  | (k₂, v) :: rest => if k == k₂ then some v else alook k rest

/-- The drill-down loop of `load`: `stats = stats[x]` with only `KeyError`
caught (caught `KeyError` returns `None`).  Subscripting a non-dict value
with a string key raises `TypeError`, which is not caught. -/
def drill : JVal → List String → Except PyErr (Option JVal)
  | v, [] => .ok (some v)
  | .jobj kvs, x :: xs =>
    match alook x kvs with
    | some v => drill v xs
    | none => .ok none
  | _, _ :: _ => .error .typeError

/-- `gdata.load`: `fs` is the file content at the resolved path (`none` when
the file does not exist), `t` the current time, `upd` the `update` flag. -/
def gload (fs : Option JVal) (keys : List String) (t : ℚ) (upd : Bool) :
    Except PyErr (Option JVal) :=
  match fs with
  | none => .ok none
  | some doc =>
    if upd then
      match update_val t doc with
      | .error _ => .error .valueError
      | .ok doc₂ => drill doc₂ keys
    else drill doc keys

/-! ### String membership in a document -/

mutual

/-- `s` occurs as a string value somewhere in the document. -/
def cstr_val (s : String) : JVal → Bool
  | .jstr s₂ => s₂ == s
  | .jobj kvs => cstr_dict s kvs
  | .jarr xs => cstr_list s xs
  | _ => false

/-- `s` occurs as a string value in one of the dict members. -/
def cstr_dict (s : String) : List (String × JVal) → Bool
  | [] => false
  | (_, v) :: rest => cstr_val s v || cstr_dict s rest

/-- `s` occurs as a string value in one of the list elements. -/
def cstr_list (s : String) : List JVal → Bool
  | [] => false
  | v :: rest => cstr_val s v || cstr_list s rest

end

/-- `_update_str` raises `ValueError` when the suffix fails to parse. -/
theorem update_str_error {t : ℚ} {s : String}
    (hsep : (pysplit jsep s).length ≠ 1)
    (hbad : pyFloat ((pysplit jsep s).getD 1 "") = none) :
    update_str t s = .error () := by
  unfold update_str
  rw [if_pos hsep, hbad]

mutual

/-- A malformed expiring string anywhere in a value makes `_update` raise. -/
theorem cstr_val_error (t : ℚ) (s : String)
    (hsep : (pysplit jsep s).length ≠ 1)
    (hbad : pyFloat ((pysplit jsep s).getD 1 "") = none) :
    ∀ v : JVal, cstr_val s v = true → update_val t v = .error ()
  | .jstr s₂, hin => by
    simp only [cstr_val, beq_iff_eq] at hin
    subst hin
    simp [update_val, update_str_error hsep hbad]
  | .jobj kvs, hin => by
    simp only [cstr_val] at hin
    simp [update_val, cstr_dict_error t s hsep hbad kvs hin]
  | .jarr xs, hin => by
    simp only [cstr_val] at hin
    simp [update_val, cstr_list_error t s hsep hbad xs hin]
  | .jnull, hin => by simp [cstr_val] at hin
  | .jbool b, hin => by simp [cstr_val] at hin
  | .jnum q, hin => by simp [cstr_val] at hin

/-- A malformed expiring string in some member makes `_update_dict` raise. -/
theorem cstr_dict_error (t : ℚ) (s : String)
    (hsep : (pysplit jsep s).length ≠ 1)
    (hbad : pyFloat ((pysplit jsep s).getD 1 "") = none) :
    ∀ l : List (String × JVal), cstr_dict s l = true → update_dict t l = .error ()
  | [], hin => by simp [cstr_dict] at hin
  | (k, v) :: rest, hin => by
    simp only [cstr_dict, Bool.or_eq_true] at hin
    rcases hin with hv | hrest
    · simp [update_dict, cstr_val_error t s hsep hbad v hv]
    · simp only [update_dict]
      cases hv : update_val t v with
      | error e => rfl
      | ok w => simp [cstr_dict_error t s hsep hbad rest hrest]

/-- A malformed expiring string in some element makes `_update_list` raise. -/
theorem cstr_list_error (t : ℚ) (s : String)
    (hsep : (pysplit jsep s).length ≠ 1)
    (hbad : pyFloat ((pysplit jsep s).getD 1 "") = none) :
    ∀ l : List JVal, cstr_list s l = true → update_list t l = .error ()
  | [], hin => by simp [cstr_list] at hin
  | v :: rest, hin => by
    simp only [cstr_list, Bool.or_eq_true] at hin
    rcases hin with hv | hrest
    · simp [update_list, cstr_val_error t s hsep hbad v hv]
    · simp only [update_list]
      cases hv : update_val t v with
      | error e => rfl
      | ok w => simp [cstr_list_error t s hsep hbad rest hrest]

end


/-! ### Claims C8 and C9 -/

/-- **C8 (counterexample).**  The claim says that any missing requested key
returns the absent sentinel rather than raising.  But only `KeyError` is
caught: drilling a string key into a non-dict value (here the number at
`"a"`) raises an uncaught `TypeError`. -/
theorem c8_drill_typeerror_cex :
    gload (some (.jobj [("a", .jnum 5)])) ["a", "b"] 0 false = .error .typeError :=
  rfl

/-- **C8 (amended).**  `load` returns the absent sentinel (`None`) when the
file does not exist, and a key that is missing from a dict encountered
during drill-down returns the absent sentinel rather than raising; but
drilling a key into a non-dict value raises an uncaught `TypeError` (see the
counterexample). -/
theorem c8_load_absent (keys : List String) (t : ℚ) (upd : Bool)
    (kvs : List (String × JVal)) (x : String) (xs : List String)
    (hmiss : alook x kvs = none) :
    gload none keys t upd = .ok none ∧
    drill (.jobj kvs) (x :: xs) = .ok none := by
  exact ⟨rfl, by simp [drill, hmiss]⟩

/-- **C8 (witness).** -/
theorem c8_load_absent_witness :
    gload none ["a"] 0 true = .ok none ∧
    drill (.jobj [("a", .jnum 5)]) ["b", "c"] = .ok none :=
  c8_load_absent ["a"] 0 true [("a", .jnum 5)] "b" ["c"] rfl

/-- **C9.**  A document containing a string with at least one U+241F
separator whose segment after the first separator does not parse as a float
makes normalization raise `ValueError`, so `load` with normalization enabled
fails on such a document instead of returning it. -/
theorem c9_malformed_expiry_raises (t : ℚ) (D : JVal) (s : String)
    (hin : cstr_val s D = true)
    (hsep : (pysplit jsep s).length ≠ 1)
    (hbad : pyFloat ((pysplit jsep s).getD 1 "") = none) :
    update_val t D = .error () ∧
    ∀ keys : List String, gload (some D) keys t true = .error .valueError := by
  have herr := cstr_val_error t s hsep hbad D hin
  refine ⟨herr, fun keys => ?_⟩
  simp [gload, herr]

/-- **C9 (witness).** -/
theorem c9_malformed_expiry_raises_witness :
    update_val 0 (.jarr [.jstr "vip@other␟soon"]) = .error () ∧
    gload (some (.jarr [.jstr "vip@other␟soon"])) [] 0 true = .error .valueError := by
  have h := c9_malformed_expiry_raises 0 (.jarr [.jstr "vip@other␟soon"])
    "vip@other␟soon" (by rfl) (by decide) (by decide)
  exact ⟨h.1, h.2 []⟩


/-! ### `/alliance create` (`_hooks.py::server_command`, `cat == 'alliance'`,
`scommand == 'create'`)

The handler reads: the acting player's points balance `plrdata['spoints']`,
whether the player is already in an alliance (`alliancedata` truthy), the
space-split command words `msg_splits`, and the reserved-names list `nlist`
(`galliancenames`, defaulting to `[]`).  The fresh alliance id is drawn by a
retry loop over random 5-digit strings until unused; the id value is
irrelevant to the mutation, so it is passed in as `allianceid`. -/

/-- An alliance document as built by `create`:
`{'name': name, 'members': {spid: 'owner'}}`. -/
structure AllianceDoc where
  name : String
  members : List (String × String)
  deriving DecidableEq

/-- Python `str.lower()` (modeled on the ASCII range; the repository's
names are ASCII). -/
def pyLower (s : String) : String :=
  ⟨s.data.map Char.toLower⟩

/-- Python `str.isalnum()` (modeled on the ASCII range; the repository's
names are ASCII). -/
def pyIsAlnum (s : String) : Bool :=
  s ≠ "" && s.data.all Char.isAlphanum

/-- Outcome of `/alliance create`.  Error constructors match the
notification sent on each early `return True`; `raised` is the uncaught
`IndexError` on `msg_splits[2]`.  On success the handler builds the
alliance document, appends the lowercased name to `nlist`, points
`plrdata['allianceidref']` at the new id and deducts 1000 points. -/
inductive CreateRes where
  | alreadyInAlliance
  | insufficientFunds (missing : ℤ)
  | raised
  | isNotAlnum
  | tooLong
  | nameTaken
  | success (alliance : AllianceDoc) (nlist : List String)
      (spoints : ℤ) (idref : String)
  deriving DecidableEq

/-- The `/alliance create` mutation. -/
def allianceCreate (inAlliance : Bool) (spoints : ℤ) (msgSplits : List String)
    (nlist : List String) (spid allianceid : String) : CreateRes :=
  if inAlliance then .alreadyInAlliance
  else if spoints < 1000 then .insufficientFunds (1000 - spoints)
  else
    match msgSplits.get? 2 with
    | none => .raised
    | some name =>
      if ¬ pyIsAlnum name ∨ msgSplits.length > 3 then .isNotAlnum
      else if name.length ≥ 20 then .tooLong
      else if pyLower name ∈ nlist then .nameTaken
      else .success ⟨name, [(spid, "owner")]⟩ (nlist ++ [pyLower name])
        (spoints - 1000) allianceid

/-- **C3 (counterexample).**  A 20-character alphanumeric name is rejected
as too long (`if len(name) >= 20`), although the claim asserts creation
succeeds for names of length at most 20: here the player is not in an
alliance, has exactly 1000 points, and the name is unreserved. -/
theorem c3_create_twenty_chars_cex :
    allianceCreate false 1000 ["alliance", "create", "aaaaaaaaaaaaaaaaaaaa"]
      [] "p1" "12345" = .tooLong ∧
    ∀ (al : AllianceDoc) (nl : List String) (sp : ℤ) (idr : String),
      allianceCreate false 1000 ["alliance", "create", "aaaaaaaaaaaaaaaaaaaa"]
        [] "p1" "12345" ≠ .success al nl sp idr := by
  refine ⟨by decide, ?_⟩
  intro al nl sp idr
  rw [show allianceCreate false 1000 ["alliance", "create", "aaaaaaaaaaaaaaaaaaaa"]
      [] "p1" "12345" = .tooLong from by decide]
  simp

/-- **C3 (amended).**  For a `/alliance create <name>` command where the
player is not in an alliance, has at least 1000 points, and `<name>` is
alphanumeric, of length at most **19** (the handler rejects
`len(name) >= 20`), and not reserved case-insensitively, creation succeeds:
the creator becomes the sole owner and 1000 points are deducted. -/
theorem c3_create_success (sp : ℤ) (name : String) (nlist : List String)
    (spid aid : String) (hsp : 1000 ≤ sp) (halnum : pyIsAlnum name = true)
    (hlen : name.length ≤ 19) (hfree : pyLower name ∉ nlist) :
    allianceCreate false sp ["alliance", "create", name] nlist spid aid =
      .success ⟨name, [(spid, "owner")]⟩ (nlist ++ [pyLower name])
        (sp - 1000) aid := by
  unfold allianceCreate
  rw [if_neg (by simp), if_neg (by omega)]
  dsimp only [List.get?]
  rw [if_neg (by simp [halnum]), if_neg (by omega), if_neg hfree]

/-- **C3 (witness).** -/
theorem c3_create_success_witness :
    allianceCreate false 1000 ["alliance", "create", "Knights"] [] "p1" "54321" =
      .success ⟨"Knights", [("p1", "owner")]⟩ ["knights"] 0 "54321" := by
  have h := c3_create_success 1000 "Knights" [] "p1" "54321"
    (by norm_num) (by decide) (by decide) (by simp)
  exact h.trans (by decide)

/-! ### `/alliance leave` (`_hooks.py::server_command`, `scommand == 'leave'`)

```
ownercount = 0
for i in alliancedata['members']:
    if alliancedata['members'][i] == 'owner': ownercount += 1
if alliancedata['members'][spid] == 'owner' and ownercount == 1:
    inform('allianceOwnerCantLeave', ...); return True
alliancedata['members'].pop(spid)
plrdata['allianceidref'] = None
```
-/

/-- Python dict lookup in the members mapping (`None` models `KeyError`). -/
def rlook (k : String) : List (String × String) → Option String
  | [] => none
  | (k₂, v) :: rest => if k == k₂ then some v else rlook k rest

/-- The owner-counting loop. -/
def ownerCount (members : List (String × String)) : Nat :=
  (members.filter (fun p => p.2 == "owner")).length

/-- Outcome of `/alliance leave`: rejected paths return before any
mutation, so they carry nothing; `left` carries the member list after
`pop(spid)` (the player's `allianceidref` is also cleared on this path). -/
inductive LeaveRes where
  | notInAlliance
  | raised
  | ownerCantLeave
  | left (members : List (String × String))
  deriving DecidableEq

/-- The `/alliance leave` mutation. -/
def allianceLeave (inAlliance : Bool) (members : List (String × String))
    (spid : String) : LeaveRes :=
  if ¬ inAlliance then .notInAlliance
  else
    match rlook spid members with
    | none => .raised
    | some rank =>
      if rank = "owner" ∧ ownerCount members = 1 then .ownerCantLeave
      else .left (members.eraseP (fun p => p.1 == spid))

/-- **C7.**  When the members mapping has exactly one owner and that owner
issues `/alliance leave`, the command is rejected with the
`allianceOwnerCantLeave` error and nothing is mutated: the reject path
returns before `members.pop(spid)` and before `plrdata['allianceidref']`
is cleared. -/
theorem c7_sole_owner_cannot_leave (members : List (String × String))
    (spid : String) (hrank : rlook spid members = some "owner")
    (hcount : ownerCount members = 1) :
    allianceLeave true members spid = .ownerCantLeave := by
  unfold allianceLeave
  rw [if_neg (by simp), hrank]
  dsimp only
  rw [if_pos ⟨rfl, hcount⟩]

/-- **C7 (witness).** -/
theorem c7_sole_owner_cannot_leave_witness :
    allianceLeave true [("p1", "owner"), ("p2", "member")] "p1" =
      .ownerCantLeave :=
  c7_sole_owner_cannot_leave [("p1", "owner"), ("p2", "member")] "p1"
    (by decide) (by decide)


/-! ### `/equip <category> <item>` (`_hooks.py::server_command`, `cat == 'equip'`)

```
te = None
for o in plrdata['items'] + plrdata['equipped']:
    if o.split('␟')[0] == item + '@' + scat: te = o; break
if not te or scat in ('other', 'emote', 'powerup'):
    inform('unknownItemStatusE', ...); return True
for i in plrdata['equipped']:
    if te != i and scat == i.split('␟')[0].split('@')[1]:
        plrdata['items'].append(i); plrdata['equipped'].remove(i)
if te in plrdata['items']:
    plrdata['items'].remove(te); plrdata['equipped'].append(te)
else:
    plrdata['items'].append(te); plrdata['equipped'].remove(te)
```
The `for i in plrdata['equipped']` loop iterates by an internal index that
keeps advancing while `remove` shifts later elements left, so removal makes
the loop skip the next element; `uloopF` reproduces that index semantics
(the `fuel` argument only bounds the recursion; the top-level call passes
`equipped.length`, which the invariant `equipped.length ≤ fuel + k` keeps
sufficient, so fuel exhaustion coincides with loop exit). -/

/-- `o.split('␟')[0]`: the identity part of an inventory string. -/
def itemIdent (o : String) : String :=
  (pysplit jsep o).headD ""

/-- `i.split('␟')[0].split('@')[1]`: the category of an inventory string;
`none` models the `IndexError` when the identity contains no `'@'`. -/
def pyCat (o : String) : Option String :=
  (pysplit '@' (itemIdent o)).get? 1

/-- Number of entries of a given category in a list of inventory strings. -/
def countCat (scat : String) (l : List String) : Nat :=
  (l.filter fun o => pyCat o == some scat).length

/-- The `te`-search: first entry of `items + equipped` whose identity equals
`item + '@' + scat`.  (A found entry is never the empty string, because the
key contains `'@'`, so Python's `not te` is exactly `te is None`.) -/
def findTe (key : String) (l : List String) : Option String :=
  l.find? fun o => itemIdent o == key

/-- The unequip loop, with Python's index-advancing `for`/`remove`
semantics.  `k` is the internal index; `remove(i)` deletes the first
occurrence of the value `i`. -/
def uloopF (te scat : String) :
    Nat → List String → List String → Nat → Except Unit (List String × List String)
  | 0, items, equipped, _ => .ok (items, equipped)
  | fuel + 1, items, equipped, k =>
    if h : k < equipped.length then
      let i := equipped.get ⟨k, h⟩
      if te = i then uloopF te scat fuel items equipped (k + 1)
      else
        match pyCat i with
        | none => .error ()
        | some c =>
          if scat = c then
            uloopF te scat fuel (items ++ [i]) (equipped.erase i) (k + 1)
          else uloopF te scat fuel items equipped (k + 1)
    else .ok (items, equipped)

/-- The unequip loop as run by the handler. -/
def uloop (te scat : String) (items equipped : List String) :
    Except Unit (List String × List String) :=
  uloopF te scat equipped.length items equipped 0

/-- Categories the handler refuses to equip. -/
def restrictedCats : List String := ["other", "emote", "powerup"]

inductive EquipTag where
  | rejected
  | raised
  | done
  deriving DecidableEq

/-- Result of `/equip`: the outcome tag plus the items/equipped lists as the
dispatcher persists them.  `rejected` returns before any mutation;
on `raised` (`IndexError` escaping the loop) the dispatcher's top-level
handler skips the final `gdata.write(plrdatapath, plrdata)`, so the
persisted lists are also the originals. -/
structure EquipOut where
  tag : EquipTag
  items : List String
  equipped : List String
  deriving DecidableEq

/-- The `/equip <scat> <item>` mutation. -/
def equipCmd (scat item : String) (items equipped : List String) : EquipOut :=
  let key := item ++ "@" ++ scat
  match findTe key (items ++ equipped) with
  | none => ⟨.rejected, items, equipped⟩
  | some te =>
    if scat ∈ restrictedCats then ⟨.rejected, items, equipped⟩
    else
      match uloop te scat items equipped with
      | .error _ => ⟨.raised, items, equipped⟩
      | .ok (its, eqs) =>
        if te ∈ its then ⟨.done, its.erase te, eqs ++ [te]⟩
        else ⟨.done, its ++ [te], eqs.erase te⟩

/-- **C10.**  Items in the categories `other`, `emote` and `powerup` can
never be equipped: the command is rejected with the `unknownItemStatusE`
warning before any mutation, even when the player owns the item. -/
theorem c10_restricted_categories_never_equip (scat item : String)
    (items equipped : List String) (hcat : scat ∈ restrictedCats) :
    equipCmd scat item items equipped = ⟨.rejected, items, equipped⟩ := by
  unfold equipCmd
  dsimp only
  cases h : findTe (item ++ "@" ++ scat) (items ++ equipped) with
  | none => rfl
  | some te => dsimp only; rw [if_pos hcat]

/-- **C10 (witness):** the player owns `wave@emote`, yet `/equip emote wave`
is rejected and the document is unchanged. -/
theorem c10_restricted_categories_never_equip_witness :
    equipCmd "emote" "wave" ["wave@emote"] [] =
      ⟨.rejected, ["wave@emote"], []⟩ :=
  c10_restricted_categories_never_equip "emote" "wave" ["wave@emote"] []
    (by decide)

/-- **C6 (counterexample).**  On a player document that starts with two
`c`-category items equipped, a successful `/equip c a` ends with two
`c`-category items equipped: the unequip loop removes `x@c` at index 0,
the internal index advances, `y@c` (shifted to index 0) is skipped, and
`a@c` is then equipped alongside it. -/
theorem c6_equip_exclusivity_cex :
    equipCmd "c" "a" ["a@c"] ["x@c", "y@c"] =
      ⟨.done, ["x@c"], ["y@c", "a@c"]⟩ ∧
    countCat "c" ["y@c", "a@c"] = 2 := by
  exact ⟨by decide, by decide⟩


/-! ### Behavior of the unequip loop -/

/-- The loop takes no action on `i`: either `i` is `te` itself (the first
conjunct of the Python condition fails) or its category differs. -/
def loopSkip (te scat i : String) : Prop :=
  te = i ∨ ∃ c, pyCat i = some c ∧ c ≠ scat

/-- The loop acts on `i` (moves it back to `items`). -/
def actE (te scat i : String) : Bool :=
  (te != i) && (pyCat i == some scat)

theorem loopSkip_of_not_act {te scat i : String} (hwf : i ≠ te → (pyCat i).isSome = true)
    (h : ¬ actE te scat i = true) : loopSkip te scat i := by
  by_cases hte : te = i
  · exact Or.inl hte
  · right
    rcases Option.isSome_iff_exists.mp (hwf (fun hh => hte hh.symm)) with ⟨c, hc⟩
    refine ⟨c, hc, fun hcs => h ?_⟩
    simp [actE, bne_iff_ne, hte, hc, hcs]

/-- If every equipped entry is a skip entry, the loop is a no-op. -/
theorem uloop_noact (te scat : String) :
    ∀ (fuel : Nat) (items equipped : List String) (k : Nat),
      (∀ i ∈ equipped, loopSkip te scat i) →
      uloopF te scat fuel items equipped k = .ok (items, equipped)
  | 0, items, equipped, k, _ => rfl
  | fuel + 1, items, equipped, k, hskip => by
    unfold uloopF
    split
    case isTrue h =>
      dsimp only
      have hsk := hskip _ (equipped.get_mem k h)
      by_cases hte : te = equipped.get ⟨k, h⟩
      · rw [if_pos hte]
        exact uloop_noact te scat fuel items equipped (k + 1) hskip
      · rw [if_neg hte]
        rcases hsk with h2 | ⟨c, hc, hne⟩
        · exact absurd h2 hte
        · rw [hc]
          dsimp only
          rw [if_neg (fun hh => hne hh.symm)]
          exact uloop_noact te scat fuel items equipped (k + 1) hskip
    case isFalse h => rfl

/-- If exactly one equipped entry `z` is acted upon, the loop moves `z` to
the end of `items` and deletes it from `equipped`, leaving the rest (the
element after `z` is skipped, but it is a skip entry anyway). -/
theorem uloop_single (te scat z : String) (hz : te ≠ z)
    (hzc : pyCat z = some scat) :
    ∀ (fuel : Nat) (l₁ l₂ items : List String) (k : Nat),
      (∀ i ∈ l₁, loopSkip te scat i) → (∀ i ∈ l₂, loopSkip te scat i) →
      z ∉ l₁ → k ≤ l₁.length → (l₁ ++ z :: l₂).length ≤ fuel + k →
      uloopF te scat fuel items (l₁ ++ z :: l₂) k = .ok (items ++ [z], l₁ ++ l₂)
  | 0, l₁, l₂, items, k, h1, h2, hz1, hk, hlen => by
    exfalso
    simp only [List.length_append, List.length_cons] at hlen
    omega
  | fuel + 1, l₁, l₂, items, k, h1, h2, hz1, hk, hlen => by
    have hklen : k < (l₁ ++ z :: l₂).length := by
      simp only [List.length_append, List.length_cons]
      omega
    unfold uloopF
    rw [dif_pos hklen]
    dsimp only
    rcases lt_or_eq_of_le hk with hklt | hkeq
    · have hget : (l₁ ++ z :: l₂).get ⟨k, hklen⟩ = l₁.get ⟨k, hklt⟩ := by
        simp [List.get_eq_getElem, List.getElem_append_left hklt]
      have hsk : loopSkip te scat ((l₁ ++ z :: l₂).get ⟨k, hklen⟩) := by
        rw [hget]; exact h1 _ (l₁.get_mem k hklt)
      by_cases hte : te = (l₁ ++ z :: l₂).get ⟨k, hklen⟩
      · rw [if_pos hte]
        refine uloop_single te scat z hz hzc fuel l₁ l₂ items (k + 1) h1 h2 hz1 ?_ ?_
        · omega
        · simp only [List.length_append, List.length_cons] at hlen ⊢; omega
      · rw [if_neg hte]
        rcases hsk with h2x | ⟨c, hc, hne⟩
        · exact absurd h2x hte
        · rw [hc]
          dsimp only
          rw [if_neg (fun hh => hne hh.symm)]
          refine uloop_single te scat z hz hzc fuel l₁ l₂ items (k + 1) h1 h2 hz1 ?_ ?_
          · omega
          · simp only [List.length_append, List.length_cons] at hlen ⊢; omega
    · have hget : (l₁ ++ z :: l₂).get ⟨k, hklen⟩ = z := by
        subst hkeq
        simp [List.get_eq_getElem, List.getElem_append_right (le_refl l₁.length)]
      rw [if_neg (by rw [hget]; exact hz)]
      rw [hget, hzc]
      dsimp only
      rw [if_pos rfl]
      have herase : (l₁ ++ z :: l₂).erase z = l₁ ++ l₂ := by
        rw [List.erase_append_right _ (fun hmem => hz1 hmem)]
        simp [List.erase_cons_head]
      rw [herase]
      apply uloop_noact
      intro i hi
      rcases List.mem_append.mp hi with hil | hir
      · exact h1 i hil
      · exact h2 i hir

/-- A list whose `p`-filter has at most one element is either `p`-free or
splits around a unique `p`-element. -/
theorem filter_le_one_split {α : Type} (p : α → Bool) :
    ∀ l : List α, (l.filter p).length ≤ 1 →
      (∀ i ∈ l, ¬ p i = true) ∨
      ∃ l₁ z l₂, l = l₁ ++ z :: l₂ ∧ p z = true ∧
        (∀ i ∈ l₁, ¬ p i = true) ∧ (∀ i ∈ l₂, ¬ p i = true)
  | [], _ => Or.inl (by simp)
  | x :: xs, h => by
    by_cases hpx : p x = true
    · right
      refine ⟨[], x, xs, rfl, hpx, by simp, ?_⟩
      rw [List.filter_cons_of_pos hpx] at h
      intro i hi hpi
      have hmem : i ∈ xs.filter p := List.mem_filter.mpr ⟨hi, hpi⟩
      have hlen0 : (xs.filter p).length = 0 := by
        simp only [List.length_cons] at h
        omega
      rw [List.length_eq_zero.mp hlen0] at hmem
      exact absurd hmem (List.not_mem_nil i)
    · rw [List.filter_cons_of_neg (by simpa using hpx)] at h
      rcases filter_le_one_split p xs h with hall | ⟨l₁, z, l₂, rfl, hz, h1, h2⟩
      · left
        intro i hi
        rcases List.mem_cons.mp hi with rfl | hix
        · exact hpx
        · exact hall i hix
      · right
        refine ⟨x :: l₁, z, l₂, rfl, hz, ?_, h2⟩
        intro i hi
        rcases List.mem_cons.mp hi with rfl | hix
        · exact hpx
        · exact h1 i hix

/-- Filter-length monotonicity along a pointwise implication. -/
theorem length_filter_le_of_imp {α : Type} (p q : α → Bool) :
    ∀ l : List α, (∀ a ∈ l, p a = true → q a = true) →
      (l.filter p).length ≤ (l.filter q).length
  | [], _ => le_refl _
  | x :: xs, h => by
    have ih := length_filter_le_of_imp p q xs (fun a ha => h a (List.mem_cons_of_mem x ha))
    by_cases hpx : p x = true
    · rw [List.filter_cons_of_pos hpx,
        List.filter_cons_of_pos (h x (List.mem_cons_self x xs) hpx)]
      simpa using ih
    · rw [List.filter_cons_of_neg (by simpa using hpx)]
      by_cases hqx : q x = true
      · rw [List.filter_cons_of_pos hqx]
        exact le_trans ih (by simp)
      · rw [List.filter_cons_of_neg (by simpa using hqx)]
        exact ih

/-- `find?` returns the unique element satisfying the predicate. -/
theorem find?_eq_some_unique {p : String → Bool} :
    ∀ {l : List String} {a : String}, a ∈ l → p a = true →
      (∀ b ∈ l, p b = true → b = a) → l.find? p = some a
  | [], a, ha, _, _ => absurd ha (List.not_mem_nil a)
  | x :: xs, a, ha, hpa, huniq => by
    by_cases hpx : p x = true
    · rw [List.find?_cons_of_pos _ hpx]
      exact congrArg some (huniq x (List.mem_cons_self x xs) hpx)
    · rw [List.find?_cons_of_neg _ (by simpa using hpx)]
      have hax : a ≠ x := fun hh => hpx (hh ▸ hpa)
      have hmem : a ∈ xs := by
        rcases List.mem_cons.mp ha with rfl | hx
        · exact absurd rfl hax
        · exact hx
      exact find?_eq_some_unique hmem hpa
        (fun b hb hpb => huniq b (List.mem_cons_of_mem x hb) hpb)


/-! ### Counting helpers -/

theorem countCat_append (scat : String) (l₁ l₂ : List String) :
    countCat scat (l₁ ++ l₂) = countCat scat l₁ + countCat scat l₂ := by
  simp [countCat, List.filter_append]

theorem countCat_eq_zero (scat : String) (l : List String)
    (h : ∀ i ∈ l, ¬ pyCat i = some scat) : countCat scat l = 0 := by
  simp only [countCat, List.length_eq_zero, List.filter_eq_nil_iff]
  intro a ha
  simpa using h a ha

theorem countCat_single_le (scat te : String) : countCat scat [te] ≤ 1 := by
  simp only [countCat, List.filter]
  split <;> simp

theorem countCat_sublist (scat : String) {l₁ l₂ : List String}
    (h : l₁.Sublist l₂) : countCat scat l₁ ≤ countCat scat l₂ :=
  List.Sublist.length_le (h.filter _)

/-- Master lemma for `/equip`: on a document with pairwise-distinct item
identities and at most one equipped entry of the target category, a found
`te` yields a `done` outcome, the two lists are only rearranged, at most one
equipped entry of the category remains, and `te` switches sides. -/
theorem equip_master (scat item te : String) (items equipped : List String)
    (hids : ((items ++ equipped).map itemIdent).Nodup)
    (hcount : countCat scat equipped ≤ 1)
    (hwf : ∀ o ∈ equipped, o ≠ te → (pyCat o).isSome = true)
    (hte : findTe (item ++ "@" ++ scat) (items ++ equipped) = some te)
    (hbad : scat ∉ restrictedCats) :
    ∃ its eqs,
      equipCmd scat item items equipped = ⟨.done, its, eqs⟩ ∧
      (its ++ eqs).Perm (items ++ equipped) ∧
      countCat scat eqs ≤ 1 ∧
      (te ∈ eqs ↔ te ∈ items) ∧
      (∀ o ∈ eqs, o = te ∨ o ∈ equipped) := by
  have hmemte : te ∈ items ++ equipped := List.mem_of_find?_eq_some hte
  have hndl : (items ++ equipped).Nodup := hids.of_map
  obtain ⟨hndI, hndE, hdisj⟩ := List.nodup_append.mp hndl
  have hact : (equipped.filter (actE te scat)).length ≤ 1 := by
    refine le_trans (length_filter_le_of_imp _ _ equipped ?_) hcount
    intro a _ hpa
    simp only [actE, Bool.and_eq_true] at hpa
    exact hpa.2
  have hnocat : ∀ i, ¬ actE te scat i = true → te ≠ i → ¬ pyCat i = some scat := by
    intro i hna hne hcat
    exact hna (by simp [actE, bne_iff_ne, hne, hcat])
  rcases filter_le_one_split (actE te scat) equipped hact with hall | hsplit
  · -- no equipped entry is acted upon: the loop is a no-op
    have hskip : ∀ i ∈ equipped, loopSkip te scat i := fun i hi =>
      loopSkip_of_not_act (hwf i hi) (hall i hi)
    have hloop : uloop te scat items equipped = .ok (items, equipped) :=
      uloop_noact te scat equipped.length items equipped 0 hskip
    by_cases hti : te ∈ items
    · have htne : te ∉ equipped := hdisj hti
      refine ⟨items.erase te, equipped ++ [te], ?_, ?_, ?_, ?_, ?_⟩
      · unfold equipCmd
        dsimp only
        rw [hte]
        dsimp only
        rw [if_neg hbad, hloop]
        dsimp only
        rw [if_pos hti]
      · have L1 : (equipped ++ [te]).Perm (te :: equipped) :=
          List.perm_append_singleton te equipped
        have L2 : (items.erase te ++ (equipped ++ [te])).Perm
            (items.erase te ++ (te :: equipped)) := L1.append_left (items.erase te)
        have L3 : (items.erase te ++ (te :: equipped)).Perm
            (te :: (items.erase te ++ equipped)) := List.perm_middle
        have R1 : (items ++ equipped).Perm (te :: (items.erase te ++ equipped)) :=
          (List.perm_cons_erase hti).append_right equipped
        exact (L2.trans L3).trans R1.symm
      · have h0 : countCat scat equipped = 0 :=
          countCat_eq_zero scat equipped (fun i hi =>
            hnocat i (hall i hi) (fun hh => htne (hh ▸ hi)))
        rw [countCat_append, h0]
        simpa using countCat_single_le scat te
      · simp [hti]
      · intro o ho
        rcases List.mem_append.mp ho with h1 | h2
        · exact Or.inr h1
        · simp only [List.mem_singleton] at h2
          exact Or.inl h2
    · have hte2 : te ∈ equipped := by
        rcases List.mem_append.mp hmemte with h1 | h2
        · exact absurd h1 hti
        · exact h2
      refine ⟨items ++ [te], equipped.erase te, ?_, ?_, ?_, ?_, ?_⟩
      · unfold equipCmd
        dsimp only
        rw [hte]
        dsimp only
        rw [if_neg hbad, hloop]
        dsimp only
        rw [if_neg hti]
      · rw [List.append_assoc]
        exact ((List.perm_cons_erase hte2).append_left items).symm
      · exact le_trans (countCat_sublist scat (equipped.erase_sublist te)) hcount
      · constructor
        · intro hmem
          rw [hndE.mem_erase_iff] at hmem
          exact absurd rfl hmem.1
        · intro hmem
          exact absurd hmem hti
      · intro o ho
        exact Or.inr (List.mem_of_mem_erase ho)
  · -- exactly one acted-upon entry z
    obtain ⟨l₁, z, l₂, heq, hz, h1, h2⟩ := hsplit
    subst heq
    simp only [actE, Bool.and_eq_true, bne_iff_ne, ne_eq, beq_iff_eq] at hz
    obtain ⟨hzne, hzc⟩ := hz
    have hzl1 : z ∉ l₁ := fun hmem =>
      (h1 z hmem) (by simp [actE, bne_iff_ne, hzne, hzc])
    have hskip1 : ∀ i ∈ l₁, loopSkip te scat i := fun i hi =>
      loopSkip_of_not_act (hwf i (by simp [hi])) (h1 i hi)
    have hskip2 : ∀ i ∈ l₂, loopSkip te scat i := fun i hi =>
      loopSkip_of_not_act (hwf i (by simp [hi])) (h2 i hi)
    have hloop : uloop te scat items (l₁ ++ z :: l₂) =
        .ok (items ++ [z], l₁ ++ l₂) := by
      unfold uloop
      refine uloop_single te scat z hzne hzc (l₁ ++ z :: l₂).length l₁ l₂ items 0
        hskip1 hskip2 hzl1 (Nat.zero_le _) (by omega)
    by_cases hti : te ∈ items
    · have htne : te ∉ l₁ ++ z :: l₂ := hdisj hti
      have htiz : te ∈ items ++ [z] := List.mem_append.mpr (Or.inl hti)
      refine ⟨(items ++ [z]).erase te, (l₁ ++ l₂) ++ [te], ?_, ?_, ?_, ?_, ?_⟩
      · unfold equipCmd
        dsimp only
        rw [hte]
        dsimp only
        rw [if_neg hbad, hloop]
        dsimp only
        rw [if_pos htiz]
      · rw [List.erase_append_left _ hti]
        have L1 : ((l₁ ++ l₂) ++ [te]).Perm (te :: (l₁ ++ l₂)) :=
          List.perm_append_singleton te (l₁ ++ l₂)
        have L2 : ((items.erase te ++ [z]) ++ ((l₁ ++ l₂) ++ [te])).Perm
            ((items.erase te ++ [z]) ++ (te :: (l₁ ++ l₂))) :=
          L1.append_left (items.erase te ++ [z])
        have L3 : ((items.erase te ++ [z]) ++ (te :: (l₁ ++ l₂))).Perm
            (te :: ((items.erase te ++ [z]) ++ (l₁ ++ l₂))) := List.perm_middle
        have L4 : (items.erase te ++ [z]) ++ (l₁ ++ l₂) =
            items.erase te ++ (z :: (l₁ ++ l₂)) := by
          rw [List.append_assoc]
          rfl
        rw [L4] at L3
        have R1 : (items ++ (l₁ ++ z :: l₂)).Perm
            ((te :: items.erase te) ++ (z :: (l₁ ++ l₂))) :=
          (List.perm_cons_erase hti).append List.perm_middle
        exact (L2.trans L3).trans R1.symm
      · have h0 : countCat scat (l₁ ++ l₂) = 0 := by
          refine countCat_eq_zero scat (l₁ ++ l₂) ?_
          intro i hi
          have hine : te ≠ i := by
            intro hh
            refine htne ?_
            rcases List.mem_append.mp hi with hx | hx
            · exact List.mem_append.mpr (Or.inl (hh ▸ hx))
            · exact List.mem_append.mpr (Or.inr (List.mem_cons_of_mem z (hh ▸ hx)))
          rcases List.mem_append.mp hi with hx | hx
          · exact hnocat i (h1 i hx) hine
          · exact hnocat i (h2 i hx) hine
        rw [countCat_append, h0]
        simpa using countCat_single_le scat te
      · constructor
        · intro _; exact hti
        · intro _; exact List.mem_append.mpr (Or.inr (by simp))
      · intro o ho
        rcases List.mem_append.mp ho with hx | hx
        · rcases List.mem_append.mp hx with hy | hy
          · exact Or.inr (List.mem_append.mpr (Or.inl hy))
          · exact Or.inr (List.mem_append.mpr (Or.inr (List.mem_cons_of_mem z hy)))
        · simp only [List.mem_singleton] at hx
          exact Or.inl hx
    · have hte2 : te ∈ l₁ ++ z :: l₂ := by
        rcases List.mem_append.mp hmemte with hx | hx
        · exact absurd hx hti
        · exact hx
      have hte3 : te ∈ l₁ ++ l₂ := by
        rcases List.mem_append.mp hte2 with hx | hx
        · exact List.mem_append.mpr (Or.inl hx)
        · rcases List.mem_cons.mp hx with rfl | hy
          · exact absurd rfl hzne
          · exact List.mem_append.mpr (Or.inr hy)
      have htiz : te ∉ items ++ [z] := by
        intro hmem
        rcases List.mem_append.mp hmem with hx | hx
        · exact hti hx
        · simp only [List.mem_singleton] at hx
          exact hzne hx
      have hnd12 : (l₁ ++ l₂).Nodup := by
        have hsub : (l₁ ++ l₂).Sublist (l₁ ++ z :: l₂) :=
          List.Sublist.append_left (List.sublist_cons_self z l₂) l₁
        exact hndE.sublist hsub
      refine ⟨(items ++ [z]) ++ [te], (l₁ ++ l₂).erase te, ?_, ?_, ?_, ?_, ?_⟩
      · unfold equipCmd
        dsimp only
        rw [hte]
        dsimp only
        rw [if_neg hbad, hloop]
        dsimp only
        rw [if_neg htiz]
      · have E1 : ((items ++ [z]) ++ [te]) ++ (l₁ ++ l₂).erase te =
            (items ++ [z]) ++ (te :: (l₁ ++ l₂).erase te) := by
          rw [List.append_assoc]
          rfl
        rw [E1]
        have L1 : ((items ++ [z]) ++ (te :: (l₁ ++ l₂).erase te)).Perm
            ((items ++ [z]) ++ (l₁ ++ l₂)) :=
          (List.perm_cons_erase hte3).symm.append_left (items ++ [z])
        have L2 : (items ++ [z]) ++ (l₁ ++ l₂) = items ++ (z :: (l₁ ++ l₂)) := by
          rw [List.append_assoc]
          rfl
        rw [L2] at L1
        have R1 : (items ++ (l₁ ++ z :: l₂)).Perm (items ++ (z :: (l₁ ++ l₂))) :=
          List.Perm.append_left items List.perm_middle
        exact L1.trans R1.symm
      · have hsub : ((l₁ ++ l₂).erase te).Sublist (l₁ ++ z :: l₂) := by
          refine List.Sublist.trans ((l₁ ++ l₂).erase_sublist te) ?_
          exact List.Sublist.append_left (List.sublist_cons_self z l₂) l₁
        exact le_trans (countCat_sublist scat hsub) hcount
      · constructor
        · intro hmem
          rw [hnd12.mem_erase_iff] at hmem
          exact absurd rfl hmem.1
        · intro hmem
          exact absurd hmem hti
      · intro o ho
        have hmem12 : o ∈ l₁ ++ l₂ := List.mem_of_mem_erase ho
        rcases List.mem_append.mp hmem12 with hx | hx
        · exact Or.inr (List.mem_append.mpr (Or.inl hx))
        · exact Or.inr (List.mem_append.mpr (Or.inr (List.mem_cons_of_mem z hx)))

/-- **C6 (amended).**  For a player document whose item identities
(`o.split('␟')[0]`) are pairwise distinct across `items + equipped`, whose
equipped entries are well-formed (their identity contains `'@'`) with at
most one equipped entry of the command's category, a `/equip <scat> <item>`
command that finds its item (and whose category is not restricted) succeeds,
leaves at most one equipped entry of that category, and toggles: if the
found entry came from `items` it becomes equipped and repeating the command
moves it back to `items`; if it was already equipped it moves back to
`items` immediately. -/
theorem c6_equip_exclusive_and_toggles (scat item te : String)
    (items equipped : List String)
    (hids : ((items ++ equipped).map itemIdent).Nodup)
    (hcount : countCat scat equipped ≤ 1)
    (hwf : ∀ o ∈ equipped, (pyCat o).isSome = true)
    (hte : findTe (item ++ "@" ++ scat) (items ++ equipped) = some te)
    (hbad : scat ∉ restrictedCats) :
    ∃ its eqs,
      equipCmd scat item items equipped = ⟨.done, its, eqs⟩ ∧
      countCat scat eqs ≤ 1 ∧
      (te ∈ items → te ∈ eqs ∧
        ∃ its₂ eqs₂, equipCmd scat item its eqs = ⟨.done, its₂, eqs₂⟩ ∧
          te ∈ its₂ ∧ te ∉ eqs₂) ∧
      (te ∈ equipped → te ∈ its ∧ te ∉ eqs) := by
  have hkeyEq : itemIdent te = item ++ "@" ++ scat := by
    have h := List.find?_some hte
    simpa using h
  have hmemte : te ∈ items ++ equipped := List.mem_of_find?_eq_some hte
  have hndl : (items ++ equipped).Nodup := hids.of_map
  obtain ⟨hndI, hndE, hdisj⟩ := List.nodup_append.mp hndl
  have hinj := List.inj_on_of_nodup_map hids
  obtain ⟨its, eqs, heval, hperm, hcnt, hiff, hsubs⟩ :=
    equip_master scat item te items equipped hids hcount
      (fun o ho _ => hwf o ho) hte hbad
  have hperm2 : ∀ o, o ∈ its ++ eqs ↔ o ∈ items ++ equipped :=
    fun o => hperm.mem_iff
  have hnd2 : (its ++ eqs).Nodup := hperm.symm.nodup_iff.mp hndl
  obtain ⟨hndI2, hndE2, hdisj2⟩ := List.nodup_append.mp hnd2
  refine ⟨its, eqs, heval, hcnt, ?_, ?_⟩
  · intro hti
    have hteqs : te ∈ eqs := hiff.mpr hti
    have htits : te ∉ its := fun hmem => hdisj2 hmem hteqs
    -- second invocation
    have hids₂ : ((its ++ eqs).map itemIdent).Nodup :=
      ((hperm.map itemIdent).nodup_iff).mpr hids
    have hwf₂ : ∀ o ∈ eqs, o ≠ te → (pyCat o).isSome = true := by
      intro o ho hne
      rcases hsubs o ho with rfl | hmem
      · exact absurd rfl hne
      · exact hwf o hmem
    have hte₂ : findTe (item ++ "@" ++ scat) (its ++ eqs) = some te := by
      refine find?_eq_some_unique ((hperm2 te).mpr hmemte) ?_ ?_
      · simpa using hkeyEq
      · intro b hb hpb
        refine hinj ((hperm2 b).mp hb) hmemte ?_
        have : itemIdent b = item ++ "@" ++ scat := by simpa using hpb
        rw [this, hkeyEq]
    obtain ⟨its₂, eqs₂, heval₂, hperm₂, _, hiff₂, _⟩ :=
      equip_master scat item te its eqs hids₂ hcnt hwf₂ hte₂ hbad
    have hteqs₂ : te ∉ eqs₂ := fun hmem => htits (hiff₂.mp hmem)
    have htmem₂ : te ∈ its₂ ++ eqs₂ := hperm₂.mem_iff.mpr ((hperm2 te).mpr hmemte)
    have htits₂ : te ∈ its₂ := by
      rcases List.mem_append.mp htmem₂ with hx | hx
      · exact hx
      · exact absurd hx hteqs₂
    exact ⟨hteqs, its₂, eqs₂, heval₂, htits₂, hteqs₂⟩
  · intro hteq
    have hti : te ∉ items := fun hmem => hdisj hmem hteq
    have hteqs : te ∉ eqs := fun hmem => hti (hiff.mp hmem)
    have htmem : te ∈ its ++ eqs := (hperm2 te).mpr hmemte
    have htits : te ∈ its := by
      rcases List.mem_append.mp htmem with hx | hx
      · exact hx
      · exact absurd hx hteqs
    exact ⟨htits, hteqs⟩

/-- **C6 (witness).** -/
theorem c6_equip_exclusive_and_toggles_witness :
    ∃ its eqs,
      equipCmd "c" "a" ["a@c", "b@x"] ["b@c"] = ⟨.done, its, eqs⟩ ∧
      countCat "c" eqs ≤ 1 ∧
      ("a@c" ∈ ["a@c", "b@x"] → "a@c" ∈ eqs ∧
        ∃ its₂ eqs₂, equipCmd "c" "a" its eqs = ⟨.done, its₂, eqs₂⟩ ∧
          "a@c" ∈ its₂ ∧ "a@c" ∉ eqs₂) ∧
      ("a@c" ∈ ["b@c"] → "a@c" ∈ its ∧ "a@c" ∉ eqs) :=
  c6_equip_exclusive_and_toggles "c" "a" "a@c" ["a@c", "b@x"] ["b@c"]
    (by decide) (by decide) (by decide) (by decide) (by decide)


/-! ### Top-players document update
(`_dualteamsession.py::DualTeamSession._switch_to_score_screen`, lines 74-99)

```
topsdata = gdata.load(topsdatapath) or {}
topsdata.setdefault('end', 0)
if topsdata['end'] < time.time():
    tl = list(topsdata.keys()); tl.remove('end')
    for y, toppid in enumerate(tl[:3]): ...spoints += 10000/5000/2500...
    topsdata = {'end': time.time() + 2592000}
topsdata.setdefault(pid, 0)
topsdata[pid] += spoints
topsdata = dict(sorted(topsdata.items(), key=lambda x: x[1], reverse=True))
gdata.write(topsdatapath, topsdata)
```
The flat dict is an association list; the winner bonus awards (which are
credited to separate player documents) are returned alongside the new
document as `(toppid, bonus)` pairs. -/

/-- Python `d.setdefault(k, v)` on an association list. -/
def dSetDefault (k : String) (v : ℚ) (d : List (String × ℚ)) : List (String × ℚ) :=
  if d.any (fun p => p.1 == k) then d else d ++ [(k, v)]

/-- Python `d[k] += v` (the key is present; dict keys are unique, so mapping
over all matching entries touches exactly the one entry). -/
def dAdd (k : String) (v : ℚ) (d : List (String × ℚ)) : List (String × ℚ) :=
  d.map fun p => if p.1 == k then (p.1, p.2 + v) else p

/-- Python `d[k]` with the key known present (0 default for modeling). -/
def dGet (k : String) (d : List (String × ℚ)) : ℚ :=
  ((d.find? fun p => p.1 == k).map Prod.snd).getD 0

/-- Stable insertion for a descending sort: insert before the first entry
whose value is `≤` the inserted one (entries already in the accumulator sit
later in the original list, so ties keep original order). -/
def insOne (p : String × ℚ) : List (String × ℚ) → List (String × ℚ)
  | [] => [p]
  | q :: rest => if q.2 ≤ p.2 then p :: q :: rest else q :: insOne p rest

/-- Python `sorted(d.items(), key=lambda x: x[1], reverse=True)`: the stable
descending sort by value (insertion formulation; stability and the
comparison make it pointwise equal to Python's sort). -/
def sortDesc (l : List (String × ℚ)) : List (String × ℚ) :=
  l.foldr insOne []

theorem mem_insOne {p x : String × ℚ} :
    ∀ {l : List (String × ℚ)}, x ∈ insOne p l → x = p ∨ x ∈ l
  | [], h => by simpa [insOne] using h
  | q :: rest, h => by
    simp only [insOne] at h
    split at h
    · rcases List.mem_cons.mp h with rfl | hx
      · exact Or.inl rfl
      · exact Or.inr hx
    · rcases List.mem_cons.mp h with rfl | hx
      · exact Or.inr (List.mem_cons_self _ _)
      · rcases mem_insOne hx with rfl | hy
        · exact Or.inl rfl
        · exact Or.inr (List.mem_cons_of_mem q hy)

theorem insOne_pairwise (p : String × ℚ) :
    ∀ {l : List (String × ℚ)}, l.Pairwise (fun a b => b.2 ≤ a.2) →
      (insOne p l).Pairwise (fun a b => b.2 ≤ a.2)
  | [], _ => by simp [insOne]
  | q :: rest, h => by
    obtain ⟨hq, hrest⟩ := List.pairwise_cons.mp h
    simp only [insOne]
    split
    case isTrue hle =>
      refine List.pairwise_cons.mpr ⟨?_, h⟩
      intro b hb
      rcases List.mem_cons.mp hb with rfl | hx
      · exact hle
      · exact le_trans (hq b hx) hle
    case isFalse hgt =>
      refine List.pairwise_cons.mpr ⟨?_, insOne_pairwise p hrest⟩
      intro b hb
      rcases mem_insOne hb with rfl | hx
      · exact le_of_not_le hgt
      · exact hq b hx

theorem sortDesc_pairwise (l : List (String × ℚ)) :
    (sortDesc l).Pairwise (fun a b => b.2 ≤ a.2) := by
  induction l with
  | nil => simp [sortDesc]
  | cons p rest ih => exact insOne_pairwise p ih

/-- The tops-document update; returns the written document and the bonus
awards `(toppid, bonus)` that are credited to player documents when the
30-day window has closed. -/
def topsUpdate (pid : String) (spts t : ℚ) (doc : List (String × ℚ)) :
    List (String × ℚ) × List (String × ℚ) :=
  let d0 := dSetDefault "end" 0 doc
  let d1 := if dGet "end" d0 < t then [("end", t + 2592000)] else d0
  let awards :=
    if dGet "end" d0 < t then
      (((d0.map Prod.fst).erase "end").take 3).zip [10000, 5000, 2500]
    else []
  let d2 := dAdd pid spts (dSetDefault pid 0 d1)
  (sortDesc d2, awards)

/-- **C5 (counterexample).**  Two players on 12 points each sit adjacent
with equal values, so the non-`end` entries are not sorted *strictly*
descending (the sort is stable and keeps ties). -/
theorem c5_tops_strict_cex :
    (topsUpdate "b" 12 50 [("end", 100), ("a", 12)]).1 =
      [("end", 100), ("a", 12), ("b", 12)] ∧
    ¬ ((topsUpdate "b" 12 50 [("end", 100), ("a", 12)]).1.filter
        (fun p => p.1 != "end")).Pairwise (fun a b => a.2 > b.2) := by
  have heval : (topsUpdate "b" 12 50 [("end", 100), ("a", 12)]).1 =
      [("end", 100), ("a", 12), ("b", 12)] := by
    norm_num [topsUpdate, dSetDefault, dGet, dAdd, sortDesc, insOne]
    rw [if_neg (show ¬ ("end" = "b" ∨ "a" = "b") from by simp)]
    norm_num [insOne]
    simp
    norm_num
  refine ⟨heval, fun hp => ?_⟩
  have hlist : ((topsUpdate "b" 12 50 [("end", 100), ("a", 12)]).1.filter
      (fun p => p.1 != "end")) = [("a", 12), ("b", 12)] := by
    rw [heval]
    decide
  rw [hlist] at hp
  have h12 := (List.pairwise_cons.mp hp).1 ("b", 12) (List.mem_cons_self _ _)
  exact absurd h12 (by norm_num)

/-- **C5 (amended).**  After every points update, the non-`end` entries of
the written top-players document are sorted in non-increasing (descending,
ties allowed) order of value. -/
theorem c5_tops_sorted_desc (pid : String) (spts t : ℚ)
    (doc : List (String × ℚ)) :
    ((topsUpdate pid spts t doc).1.filter (fun p => p.1 != "end")).Pairwise
      (fun a b => b.2 ≤ a.2) := by
  unfold topsUpdate
  dsimp only
  exact (sortDesc_pairwise _).filter _


/-! ### League ladder update
(`_dualteamsession.py::DualTeamSession._switch_to_score_screen`, lines 100-132)

```
leaguesdata.setdefault('end', 0)
leaguesdata.setdefault('leagues', [{}, {}, {}, {}, {}, {}])
if leaguesdata['end'] < time.time():
    nleaguesdata = {'end': time.time() + 604800, 'leagues': [{}×6]}
    for l, league in enumerate(leaguesdata['leagues']):
        lplrs = list(league.keys()); tlp = len(lplrs)
        for lpi, lplr in enumerate(lplrs, 1):
            if l != 0 and lpi / tlp < 0.5: nleaguesdata['leagues'][l-1][lplr] = 0
            elif l != 5 and lpi / tlp > 0.5: nleaguesdata['leagues'][l+1][lplr] = 0
            else: nleaguesdata['leagues'][l][lplr] = 0
    nleaguesdata['leagues'][5] = {}
    leaguesdata = nleaguesdata; gdata.write(...)
le = 5
for lei, league in enumerate(leaguesdata['leagues']):
    if pid in list(league.keys()): le = lei; break
leaguesdata['leagues'][le].setdefault(pid, 0)
leaguesdata['leagues'][le][pid] += spoints
leaguesdata['leagues'][le] = dict(sorted(..., reverse=True))
gdata.write(...)
```
`lpi / tlp < 0.5` is Python float division; for list lengths in range it is
exactly `2 * lpi < tlp`, which is how it is modeled. -/

/-- `nleaguesdata['leagues'][x][lplr] = 0`: dict assignment (update the
existing key in place, else append). -/
def dset0 (k : String) (d : List (String × ℚ)) : List (String × ℚ) :=
  if d.any (fun p => p.1 == k) then
    d.map fun p => if p.1 == k then (p.1, 0) else p
  else d ++ [(k, 0)]

/-- Destination tier for the player at 1-based position `lpi` of `tlp` in
old tier `l`. -/
def ldest (l lpi tlp : Nat) : Nat :=
  if l ≠ 0 ∧ 2 * lpi < tlp then l - 1
  else if l ≠ 5 ∧ 2 * lpi > tlp then l + 1
  else l

/-- The inner `for lpi, lplr in enumerate(lplrs, 1)` loop of the
redistribution. -/
def placeAll (l tlp : Nat) :
    List String → Nat → List (List (String × ℚ)) → List (List (String × ℚ))
  | [], _, acc => acc
  | p :: rest, lpi, acc =>
    placeAll l tlp rest (lpi + 1)
      (acc.set (ldest l lpi tlp) (dset0 p (acc.getD (ldest l lpi tlp) [])))

/-- The window-close redistribution: build the six new tiers, then clear
tier 5. -/
def redistribute (old : List (List (String × ℚ))) : List (List (String × ℚ)) :=
  (old.enum.foldl
    (fun acc pair => placeAll pair.1 pair.2.length (pair.2.map Prod.fst) 1 acc)
    [[], [], [], [], [], []]).set 5 []

/-- The full leagues update for one scoring player. -/
def leaguesUpdate (pid : String) (spts t lend : ℚ)
    (tiers : List (List (String × ℚ))) : ℚ × List (List (String × ℚ)) :=
  let lend2 := if lend < t then t + 604800 else lend
  let tiers2 := if lend < t then redistribute tiers else tiers
  let le := ((tiers2.enum.find? fun pair =>
    pair.2.any fun p => p.1 == pid).map Prod.fst).getD 5
  let tier := dAdd pid spts (dSetDefault pid 0 (tiers2.getD le []))
  (lend2, tiers2.set le (sortDesc tier))

/-- **C4 (counterexample).**  Old tier 1 holds `a` (100 pts, top 50%) and
`b` (50 pts, bottom 50%), `end` is past.  After the update, `a` is still in
tier 1 — at position ratio exactly 1/2 the loop's two strict comparisons
both fail, so the top-50% player moves neither up nor down, contradicting
"the top 50% (excluding tier 5) move one tier up".  Moreover the scoring
player `z` is untracked, lands in tier 5, and is credited there, so tier 5
of the written document is not empty. -/
theorem c4_league_window_cex :
    leaguesUpdate "z" 12 10 0 [[], [("a", 100), ("b", 50)], [], [], [], []] =
      (604810, [[], [("a", 0)], [("b", 0)], [], [], [("z", 12)]]) ∧
    "a" ∈ ((leaguesUpdate "z" 12 10 0
      [[], [("a", 100), ("b", 50)], [], [], [], []]).2.getD 1 []).map Prod.fst ∧
    (leaguesUpdate "z" 12 10 0
      [[], [("a", 100), ("b", 50)], [], [], [], []]).2.getD 5 [] ≠ [] := by
  have hred : redistribute [[], [("a", 100), ("b", 50)], [], [], [], []] =
      [[], [("a", 0)], [("b", 0)], [], [], []] := by
    norm_num [redistribute, placeAll, dset0, ldest, List.enum, List.enumFrom]
  have heval : leaguesUpdate "z" 12 10 0 [[], [("a", 100), ("b", 50)], [], [], [], []] =
      (604810, [[], [("a", 0)], [("b", 0)], [], [], [("z", 12)]]) := by
    have h010 : (0 : ℚ) < 10 := by norm_num
    unfold leaguesUpdate
    dsimp only
    rw [if_pos h010, if_pos h010, hred]
    norm_num [dAdd, dSetDefault, sortDesc, insOne, List.enum, List.enumFrom,
      List.find?]
    simp [List.find?, List.enum, List.enumFrom]
    norm_num [dAdd, dSetDefault, sortDesc, insOne]
  refine ⟨heval, ?_, ?_⟩
  · rw [heval]; decide
  · rw [heval]; decide


/-! ### Closed form of the redistribution -/

/-- Entries that the players of one old tier, walked from 1-based position
`lpi` with tier size `tlp`, contribute to new tier `m`. -/
def contrib (l tlp : Nat) (ps : List String) (lpi m : Nat) : List (String × ℚ) :=
  (ps.enumFrom lpi).filterMap fun pair =>
    if ldest l pair.1 tlp = m then some (pair.2, (0 : ℚ)) else none

/-- What old tier `l` (key list `ps`) sends to new tier `m`. -/
def sentTo (l : Nat) (ps : List String) (m : Nat) : List (String × ℚ) :=
  contrib l ps.length ps 1 m

/-- Contributions to new tier `m` from the tiers enumerated from `startl`. -/
def recvFrom (tiers : List (List (String × ℚ))) (startl m : Nat) :
    List (String × ℚ) :=
  ((tiers.enumFrom startl).map fun pair =>
    sentTo pair.1 (pair.2.map Prod.fst) m).flatten

theorem ldest_cases (l lpi tlp : Nat) :
    ldest l lpi tlp = l - 1 ∨ ldest l lpi tlp = l ∨ ldest l lpi tlp = l + 1 := by
  unfold ldest
  split_ifs <;> simp

theorem ldest_le (l lpi tlp : Nat) (hl : l ≤ 5) : ldest l lpi tlp ≤ 5 := by
  unfold ldest
  split_ifs with h1 h2
  · omega
  · omega
  · omega

theorem sentTo_eq_nil {l m : Nat} (ps : List String)
    (h1 : l - 1 ≠ m) (h2 : l ≠ m) (h3 : l + 1 ≠ m) : sentTo l ps m = [] := by
  unfold sentTo contrib
  rw [List.filterMap_eq_nil_iff]
  intro pair _
  rcases ldest_cases l pair.1 ps.length with hc | hc | hc <;>
    simp [hc, h1, h2, h3]

theorem list_getD_set {α : Type} (l : List α) (i j : Nat) (x d : α)
    (hi : i < l.length) :
    (l.set i x).getD j d = if j = i then x else l.getD j d := by
  rcases eq_or_ne j i with rfl | hne
  · simp [List.getD_eq_getElem?_getD, List.getElem?_set_self, hi]
  · simp [List.getD_eq_getElem?_getD, List.getElem?_set_ne hne.symm, hne]

theorem any_key_eq_false {d : List (String × ℚ)} {p : String}
    (h : p ∉ d.map Prod.fst) : (d.any fun q => q.1 == p) = false := by
  rw [List.any_eq_false]
  intro q hq
  simp only [beq_iff_eq]
  intro he
  exact h (he ▸ List.mem_map_of_mem Prod.fst hq)

theorem enumFrom_snd_mem {α : Type} :
    ∀ {l : List α} {k i : Nat} {x : α}, (i, x) ∈ l.enumFrom k → x ∈ l
  | [], _, _, _, h => absurd h (List.not_mem_nil _)
  | y :: rest, k, i, x, h => by
    simp only [List.enumFrom] at h
    rcases List.mem_cons.mp h with heq | hmem
    · cases heq
      exact List.mem_cons_self _ _
    · exact List.mem_cons_of_mem y (enumFrom_snd_mem hmem)

theorem enumFrom_key_unique {α : Type} :
    ∀ {l : List α} {k i j : Nat} {x : α}, l.Nodup →
      (i, x) ∈ l.enumFrom k → (j, x) ∈ l.enumFrom k → i = j
  | [], _, _, _, _, _, h, _ => absurd h (List.not_mem_nil _)
  | y :: rest, k, i, j, x, hnd, hi, hj => by
    obtain ⟨hy, hrest⟩ := List.nodup_cons.mp hnd
    simp only [List.enumFrom] at hi hj
    rcases List.mem_cons.mp hi with heqi | hmemi <;>
      rcases List.mem_cons.mp hj with heqj | hmemj
    · cases heqi; cases heqj; rfl
    · cases heqi
      exact absurd (enumFrom_snd_mem hmemj) hy
    · cases heqj
      exact absurd (enumFrom_snd_mem hmemi) hy
    · exact enumFrom_key_unique hrest hmemi hmemj

theorem join_nodup_component {α : Type} :
    ∀ {L : List (List α)} {l : List α}, L.flatten.Nodup → l ∈ L → l.Nodup
  | [], _, _, h => absurd h (List.not_mem_nil _)
  | x :: rest, l, hnd, hmem => by
    rw [List.flatten_cons] at hnd
    obtain ⟨hx, hrest, _⟩ := List.nodup_append.mp hnd
    rcases List.mem_cons.mp hmem with rfl | hm
    · exact hx
    · exact join_nodup_component hrest hm

theorem mem_keys_contrib {l tlp lpi m : Nat} {ps : List String} {p : String}
    (h : p ∈ (contrib l tlp ps lpi m).map Prod.fst) :
    ∃ i, (i, p) ∈ ps.enumFrom lpi ∧ ldest l i tlp = m := by
  obtain ⟨q, hq, hfst⟩ := List.mem_map.mp h
  obtain ⟨pair, hpair, hsome⟩ := List.mem_filterMap.mp hq
  by_cases hc : ldest l pair.1 tlp = m
  · rw [if_pos hc] at hsome
    obtain rfl : (pair.2, (0 : ℚ)) = q := Option.some.inj hsome
    simp only at hfst
    refine ⟨pair.1, ?_, hc⟩
    rw [← hfst]
    simpa using hpair
  · rw [if_neg hc] at hsome
    exact absurd hsome (by simp)

theorem mem_keys_contrib_sub {l tlp lpi m : Nat} {ps : List String} {p : String}
    (h : p ∈ (contrib l tlp ps lpi m).map Prod.fst) : p ∈ ps := by
  obtain ⟨i, hi, _⟩ := mem_keys_contrib h
  exact enumFrom_snd_mem hi

theorem tier_unique :
    ∀ {tiers : List (List (String × ℚ))} {s : Nat},
      ((tiers.map fun t => t.map Prod.fst).flatten).Nodup →
      ∀ {l₁ t₁ l₂ t₂ : _} {p : String},
        (l₁, t₁) ∈ tiers.enumFrom s → (l₂, t₂) ∈ tiers.enumFrom s →
        p ∈ t₁.map Prod.fst → p ∈ t₂.map Prod.fst → l₁ = l₂ ∧ t₁ = t₂
  | [], _, _, _, _, _, _, _, h, _, _, _ => absurd h (List.not_mem_nil _)
  | t :: rest, s, hnd, l₁, t₁, l₂, t₂, p, h1, h2, hp1, hp2 => by
    rw [List.map_cons, List.flatten_cons] at hnd
    obtain ⟨hkt, hkrest, hdisj⟩ := List.nodup_append.mp hnd
    simp only [List.enumFrom] at h1 h2
    rcases List.mem_cons.mp h1 with heq1 | hm1 <;>
      rcases List.mem_cons.mp h2 with heq2 | hm2
    · cases heq1; cases heq2; exact ⟨rfl, rfl⟩
    · cases heq1
      exfalso
      have ht2 : t₂ ∈ rest := enumFrom_snd_mem hm2
      have : p ∈ (rest.map fun t => t.map Prod.fst).flatten :=
        List.mem_flatten.mpr ⟨t₂.map Prod.fst, List.mem_map_of_mem _ ht2, hp2⟩
      exact hdisj hp1 this
    · cases heq2
      exfalso
      have ht1 : t₁ ∈ rest := enumFrom_snd_mem hm1
      have : p ∈ (rest.map fun t => t.map Prod.fst).flatten :=
        List.mem_flatten.mpr ⟨t₁.map Prod.fst, List.mem_map_of_mem _ ht1, hp1⟩
      exact hdisj hp2 this
    · exact tier_unique hkrest hm1 hm2 hp1 hp2

theorem mem_recvFrom {tiers : List (List (String × ℚ))} {s m : Nat} {p : String}
    (h : p ∈ (recvFrom tiers s m).map Prod.fst) :
    ∃ l tier i, (l, tier) ∈ tiers.enumFrom s ∧
      (i, p) ∈ (tier.map Prod.fst).enumFrom 1 ∧
      ldest l i tier.length = m := by
  unfold recvFrom at h
  rw [List.map_flatten] at h
  obtain ⟨comp, hcomp, hmem⟩ := List.mem_flatten.mp h
  rw [List.map_map] at hcomp
  obtain ⟨pair, hpair, hc⟩ := List.mem_map.mp hcomp
  subst hc
  obtain ⟨i, hi, hd⟩ := mem_keys_contrib (by simpa [sentTo] using hmem)
  exact ⟨pair.1, pair.2, i, by simpa using hpair, hi, hd⟩


/-- Characterization of the inner placement loop: with fresh, duplicate-free
players, each new tier receives the old tier's contributions appended in
order. -/
theorem placeAll_spec (l tlp : Nat) (hl : l ≤ 5) :
    ∀ (ps : List String) (lpi : Nat) (acc : List (List (String × ℚ))),
      acc.length = 6 → ps.Nodup →
      (∀ p ∈ ps, ∀ j, j < 6 → p ∉ (acc.getD j []).map Prod.fst) →
      (placeAll l tlp ps lpi acc).length = 6 ∧
      ∀ m, m < 6 → (placeAll l tlp ps lpi acc).getD m [] =
        acc.getD m [] ++ contrib l tlp ps lpi m
  | [], lpi, acc, hacc, _, _ => by
    refine ⟨hacc, fun m _ => ?_⟩
    simp [placeAll, contrib, List.enumFrom]
  | p :: rest, lpi, acc, hacc, hnd, hfresh => by
    obtain ⟨hp, hndr⟩ := List.nodup_cons.mp hnd
    have hdest : ldest l lpi tlp ≤ 5 := ldest_le l lpi tlp hl
    have hdlt : ldest l lpi tlp < acc.length := by omega
    have hset : dset0 p (acc.getD (ldest l lpi tlp) []) =
        acc.getD (ldest l lpi tlp) [] ++ [(p, 0)] := by
      unfold dset0
      rw [any_key_eq_false (hfresh p (List.mem_cons_self p rest) _ (by omega))]
      simp
    have hacc2 : (acc.set (ldest l lpi tlp)
        (dset0 p (acc.getD (ldest l lpi tlp) []))).length = 6 := by
      simpa using hacc
    have hfresh2 : ∀ q ∈ rest, ∀ j, j < 6 →
        q ∉ ((acc.set (ldest l lpi tlp)
          (dset0 p (acc.getD (ldest l lpi tlp) []))).getD j []).map Prod.fst := by
      intro q hq j hj
      rw [list_getD_set _ _ _ _ _ hdlt]
      split
      · rw [hset, List.map_append]
        intro hmem
        rcases List.mem_append.mp hmem with hx | hx
        · exact hfresh q (List.mem_cons_of_mem p hq) _ (by omega) hx
        · simp only [List.map_cons, List.map_nil, List.mem_singleton] at hx
          exact hp (hx ▸ hq)
      · exact hfresh q (List.mem_cons_of_mem p hq) j hj
    obtain ⟨hlen2, hform⟩ := placeAll_spec l tlp hl rest (lpi + 1)
      (acc.set (ldest l lpi tlp) (dset0 p (acc.getD (ldest l lpi tlp) [])))
      hacc2 hndr hfresh2
    refine ⟨by simpa [placeAll] using hlen2, fun m hm => ?_⟩
    have hcontrib : contrib l tlp (p :: rest) lpi m =
        (if ldest l lpi tlp = m then [(p, (0 : ℚ))] else []) ++
          contrib l tlp rest (lpi + 1) m := by
      unfold contrib
      simp only [List.enumFrom, List.filterMap_cons]
      by_cases hc : ldest l lpi tlp = m
      · rw [if_pos hc, if_pos hc]
        simp
      · rw [if_neg hc, if_neg hc]
        simp
    rw [show placeAll l tlp (p :: rest) lpi acc =
      placeAll l tlp rest (lpi + 1)
        (acc.set (ldest l lpi tlp) (dset0 p (acc.getD (ldest l lpi tlp) [])))
      from rfl]
    rw [hform m hm, list_getD_set _ _ _ _ _ hdlt, hcontrib]
    rcases eq_or_ne m (ldest l lpi tlp) with rfl | hne
    · rw [if_pos rfl, if_pos rfl, hset]
      simp
    · rw [if_neg hne, if_neg (fun hh => hne hh.symm)]
      simp

/-- Characterization of the outer redistribution fold. -/
theorem foldPlace_spec :
    ∀ (tiers : List (List (String × ℚ))) (startl : Nat)
      (acc : List (List (String × ℚ))),
      startl + tiers.length ≤ 6 → acc.length = 6 →
      ((tiers.map fun tier => tier.map Prod.fst).flatten).Nodup →
      (∀ p, p ∈ ((tiers.map fun tier => tier.map Prod.fst).flatten) →
        ∀ j, j < 6 → p ∉ (acc.getD j []).map Prod.fst) →
      ((tiers.enumFrom startl).foldl
        (fun acc pair => placeAll pair.1 pair.2.length (pair.2.map Prod.fst) 1 acc)
        acc).length = 6 ∧
      ∀ m, m < 6 →
        ((tiers.enumFrom startl).foldl
          (fun acc pair => placeAll pair.1 pair.2.length (pair.2.map Prod.fst) 1 acc)
          acc).getD m [] = acc.getD m [] ++ recvFrom tiers startl m
  | [], startl, acc, _, hacc, _, _ => by
    refine ⟨hacc, fun m _ => ?_⟩
    simp [recvFrom, List.enumFrom]
  | tier :: rest, startl, acc, hle, hacc, hnd, hfresh => by
    rw [List.map_cons, List.flatten_cons] at hnd
    obtain ⟨hkt, hkrest, hdisj⟩ := List.nodup_append.mp hnd
    have hsl : startl ≤ 5 := by
      simp only [List.length_cons] at hle
      omega
    obtain ⟨hlen1, hform1⟩ := placeAll_spec startl tier.length hsl
      (tier.map Prod.fst) 1 acc hacc hkt
      (fun p hp j hj => hfresh p (List.mem_append.mpr (Or.inl hp)) j hj)
    have hfresh2 : ∀ p, p ∈ ((rest.map fun tier => tier.map Prod.fst).flatten) →
        ∀ j, j < 6 →
        p ∉ ((placeAll startl tier.length (tier.map Prod.fst) 1 acc).getD j []).map
          Prod.fst := by
      intro p hp j hj
      rw [hform1 j hj, List.map_append]
      intro hmem
      rcases List.mem_append.mp hmem with hx | hx
      · exact hfresh p (List.mem_append.mpr (Or.inr hp)) j hj hx
      · have hsub : p ∈ tier.map Prod.fst := mem_keys_contrib_sub hx
        exact hdisj hsub hp
    obtain ⟨hlen2, hform2⟩ := foldPlace_spec rest (startl + 1)
      (placeAll startl tier.length (tier.map Prod.fst) 1 acc)
      (by simp only [List.length_cons] at hle; omega) hlen1 hkrest hfresh2
    have hstep : (((tier :: rest).enumFrom startl).foldl
        (fun acc pair => placeAll pair.1 pair.2.length (pair.2.map Prod.fst) 1 acc)
        acc) = ((rest.enumFrom (startl + 1)).foldl
        (fun acc pair => placeAll pair.1 pair.2.length (pair.2.map Prod.fst) 1 acc)
        (placeAll startl tier.length (tier.map Prod.fst) 1 acc)) := by
      simp [List.enumFrom]
    refine ⟨by rw [hstep]; exact hlen2, fun m hm => ?_⟩
    rw [hstep, hform2 m hm, hform1 m hm]
    have hrecv : recvFrom (tier :: rest) startl m =
        sentTo startl (tier.map Prod.fst) m ++ recvFrom rest (startl + 1) m := by
      unfold recvFrom
      simp [List.enumFrom]
    rw [hrecv, List.append_assoc]
    have : contrib startl tier.length (tier.map Prod.fst) 1 m =
        sentTo startl (tier.map Prod.fst) m := by
      unfold sentTo
      rw [List.length_map]
    rw [this]


theorem length_six_destruct {α : Type} (l : List α) (h : l.length = 6) :
    ∃ a b c d e f, l = [a, b, c, d, e, f] := by
  cases l with
  | nil => simp at h
  | cons a l1 =>
  cases l1 with
  | nil => simp at h
  | cons b l2 =>
  cases l2 with
  | nil => simp at h
  | cons c l3 =>
  cases l3 with
  | nil => simp at h
  | cons d l4 =>
  cases l4 with
  | nil => simp at h
  | cons e l5 =>
  cases l5 with
  | nil => simp at h
  | cons f l6 =>
  cases l6 with
  | nil => exact ⟨a, b, c, d, e, f, rfl⟩
  | cons g l7 =>
    simp only [List.length_cons, List.length_nil] at h
    omega

/-- **C4 (amended).**  When the weekly window closes, the redistribution
performed before the winner's points are credited produces exactly 6 tiers;
tier 5 is cleared; each new tier `m < 5` consists of, in order, the
demotions from tier `m-1` (strict bottom half, `2*lpi > tlp`), the stayers
of tier `m` (boundary players with `2*lpi = tlp`, plus tier 0's top half
and tier 5's bottom half, which have nowhere to go), and the promotions
from tier `m+1` (strict top half, `2*lpi < tlp`), as `sentTo` spells out
via `ldest`; and, provided the input tiers contain no duplicate player id,
no player id appears in more than one tier of the result. -/
theorem c4_league_redistribution (old : List (List (String × ℚ)))
    (hlen : old.length = 6)
    (hnd : ((old.map fun tier => tier.map Prod.fst).flatten).Nodup) :
    (redistribute old).length = 6 ∧
    (redistribute old).getD 5 [] = [] ∧
    (∀ m, m < 5 → (redistribute old).getD m [] =
      (if 1 ≤ m then sentTo (m - 1) ((old.getD (m - 1) []).map Prod.fst) m
       else []) ++
      sentTo m ((old.getD m []).map Prod.fst) m ++
      sentTo (m + 1) ((old.getD (m + 1) []).map Prod.fst) m) ∧
    (∀ (p : String) (m₁ m₂ : Nat), m₁ < 6 → m₂ < 6 →
      p ∈ ((redistribute old).getD m₁ []).map Prod.fst →
      p ∈ ((redistribute old).getD m₂ []).map Prod.fst → m₁ = m₂) := by
  have hinit : ∀ p, p ∈ ((old.map fun tier => tier.map Prod.fst).flatten) →
      ∀ j, j < 6 →
      p ∉ (([[], [], [], [], [], []] :
        List (List (String × ℚ))).getD j []).map Prod.fst := by
    intro p _ j hj
    interval_cases j <;> simp
  obtain ⟨hF6, hFm⟩ := foldPlace_spec old 0 [[], [], [], [], [], []]
    (by omega) rfl hnd hinit
  have hredis : redistribute old =
      ((old.enumFrom 0).foldl
        (fun acc pair =>
          placeAll pair.1 pair.2.length (pair.2.map Prod.fst) 1 acc)
        [[], [], [], [], [], []]).set 5 [] := by
    unfold redistribute
    rfl
  have hgetd : ∀ m, m < 6 → (redistribute old).getD m [] =
      if m = 5 then [] else recvFrom old 0 m := by
    intro m hm
    rw [hredis, list_getD_set _ _ _ _ _ (by omega)]
    rcases eq_or_ne m 5 with rfl | hne
    · simp
    · rw [if_neg hne, if_neg hne, hFm m hm]
      have hzero : ([[], [], [], [], [], []] :
          List (List (String × ℚ))).getD m [] = [] := by
        interval_cases m <;> rfl
      rw [hzero]
      simp
  refine ⟨?_, ?_, ?_, ?_⟩
  · rw [hredis]
    simp only [List.length_set]
    exact hF6
  · rw [hgetd 5 (by omega)]
    simp
  · intro m hm
    rw [hgetd m (by omega), if_neg (by omega)]
    obtain ⟨t0, t1, t2, t3, t4, t5, rfl⟩ := length_six_destruct old hlen
    interval_cases m
    · rw [show recvFrom [t0, t1, t2, t3, t4, t5] 0 0 =
        sentTo 0 (t0.map Prod.fst) 0 ++ (sentTo 1 (t1.map Prod.fst) 0 ++
        (sentTo 2 (t2.map Prod.fst) 0 ++ (sentTo 3 (t3.map Prod.fst) 0 ++
        (sentTo 4 (t4.map Prod.fst) 0 ++ (sentTo 5 (t5.map Prod.fst) 0 ++ [])))))
        from by unfold recvFrom; simp [List.enumFrom]]
      rw [sentTo_eq_nil (t2.map Prod.fst) (by omega) (by omega) (by omega),
        sentTo_eq_nil (t3.map Prod.fst) (by omega) (by omega) (by omega),
        sentTo_eq_nil (t4.map Prod.fst) (by omega) (by omega) (by omega),
        sentTo_eq_nil (t5.map Prod.fst) (by omega) (by omega) (by omega)]
      simp
    · rw [show recvFrom [t0, t1, t2, t3, t4, t5] 0 1 =
        sentTo 0 (t0.map Prod.fst) 1 ++ (sentTo 1 (t1.map Prod.fst) 1 ++
        (sentTo 2 (t2.map Prod.fst) 1 ++ (sentTo 3 (t3.map Prod.fst) 1 ++
        (sentTo 4 (t4.map Prod.fst) 1 ++ (sentTo 5 (t5.map Prod.fst) 1 ++ [])))))
        from by unfold recvFrom; simp [List.enumFrom]]
      rw [sentTo_eq_nil (t3.map Prod.fst) (by omega) (by omega) (by omega),
        sentTo_eq_nil (t4.map Prod.fst) (by omega) (by omega) (by omega),
        sentTo_eq_nil (t5.map Prod.fst) (by omega) (by omega) (by omega)]
      simp
    · rw [show recvFrom [t0, t1, t2, t3, t4, t5] 0 2 =
        sentTo 0 (t0.map Prod.fst) 2 ++ (sentTo 1 (t1.map Prod.fst) 2 ++
        (sentTo 2 (t2.map Prod.fst) 2 ++ (sentTo 3 (t3.map Prod.fst) 2 ++
        (sentTo 4 (t4.map Prod.fst) 2 ++ (sentTo 5 (t5.map Prod.fst) 2 ++ [])))))
        from by unfold recvFrom; simp [List.enumFrom]]
      rw [sentTo_eq_nil (t0.map Prod.fst) (by omega) (by omega) (by omega),
        sentTo_eq_nil (t4.map Prod.fst) (by omega) (by omega) (by omega),
        sentTo_eq_nil (t5.map Prod.fst) (by omega) (by omega) (by omega)]
      simp
    · rw [show recvFrom [t0, t1, t2, t3, t4, t5] 0 3 =
        sentTo 0 (t0.map Prod.fst) 3 ++ (sentTo 1 (t1.map Prod.fst) 3 ++
        (sentTo 2 (t2.map Prod.fst) 3 ++ (sentTo 3 (t3.map Prod.fst) 3 ++
        (sentTo 4 (t4.map Prod.fst) 3 ++ (sentTo 5 (t5.map Prod.fst) 3 ++ [])))))
        from by unfold recvFrom; simp [List.enumFrom]]
      rw [sentTo_eq_nil (t0.map Prod.fst) (by omega) (by omega) (by omega),
        sentTo_eq_nil (t1.map Prod.fst) (by omega) (by omega) (by omega),
        sentTo_eq_nil (t5.map Prod.fst) (by omega) (by omega) (by omega)]
      simp
    · rw [show recvFrom [t0, t1, t2, t3, t4, t5] 0 4 =
        sentTo 0 (t0.map Prod.fst) 4 ++ (sentTo 1 (t1.map Prod.fst) 4 ++
        (sentTo 2 (t2.map Prod.fst) 4 ++ (sentTo 3 (t3.map Prod.fst) 4 ++
        (sentTo 4 (t4.map Prod.fst) 4 ++ (sentTo 5 (t5.map Prod.fst) 4 ++ [])))))
        from by unfold recvFrom; simp [List.enumFrom]]
      rw [sentTo_eq_nil (t0.map Prod.fst) (by omega) (by omega) (by omega),
        sentTo_eq_nil (t1.map Prod.fst) (by omega) (by omega) (by omega),
        sentTo_eq_nil (t2.map Prod.fst) (by omega) (by omega) (by omega)]
      simp
  · intro p m₁ m₂ hm1 hm2 hp1 hp2
    rw [hgetd m₁ hm1] at hp1
    rw [hgetd m₂ hm2] at hp2
    rcases eq_or_ne m₁ 5 with rfl | hne1
    · rw [if_pos rfl] at hp1
      simp at hp1
    rcases eq_or_ne m₂ 5 with rfl | hne2
    · rw [if_pos rfl] at hp2
      simp at hp2
    rw [if_neg hne1] at hp1
    rw [if_neg hne2] at hp2
    obtain ⟨l₁, tier₁, i₁, hmem1, hpos1, hdest1⟩ := mem_recvFrom hp1
    obtain ⟨l₂, tier₂, i₂, hmem2, hpos2, hdest2⟩ := mem_recvFrom hp2
    have hk1 : p ∈ tier₁.map Prod.fst := enumFrom_snd_mem hpos1
    have hk2 : p ∈ tier₂.map Prod.fst := enumFrom_snd_mem hpos2
    obtain ⟨rfl, rfl⟩ := tier_unique hnd hmem1 hmem2 hk1 hk2
    have hknd : (tier₁.map Prod.fst).Nodup := by
      refine join_nodup_component hnd ?_
      exact List.mem_map_of_mem _ (enumFrom_snd_mem hmem1)
    have : i₁ = i₂ := enumFrom_key_unique hknd hpos1 hpos2
    rw [← hdest1, ← hdest2, this]

/-- **C4 (witness).** -/
theorem c4_league_redistribution_witness :
    (redistribute ([[], [("a", 100), ("b", 50)], [], [], [], []] : List (List (String × ℚ)))).length = 6 ∧
    (redistribute ([[], [("a", 100), ("b", 50)], [], [], [], []] : List (List (String × ℚ)))).getD 5 [] = [] ∧
    (∀ m, m < 5 →
      (redistribute ([[], [("a", 100), ("b", 50)], [], [], [], []] : List (List (String × ℚ)))).getD m [] =
      (if 1 ≤ m then sentTo (m - 1)
        ((([[], [("a", 100), ("b", 50)], [], [], [], []] : List (List (String × ℚ))).getD (m - 1) []).map
          Prod.fst) m else []) ++
      sentTo m ((([[], [("a", 100), ("b", 50)], [], [], [], []] : List (List (String × ℚ))).getD m []).map
        Prod.fst) m ++
      sentTo (m + 1)
        ((([[], [("a", 100), ("b", 50)], [], [], [], []] : List (List (String × ℚ))).getD (m + 1) []).map
          Prod.fst) m) ∧
    (∀ (p : String) (m₁ m₂ : Nat), m₁ < 6 → m₂ < 6 →
      p ∈ ((redistribute ([[], [("a", 100), ("b", 50)], [], [], [], []] : List (List (String × ℚ)))).getD
        m₁ []).map Prod.fst →
      p ∈ ((redistribute ([[], [("a", 100), ("b", 50)], [], [], [], []] : List (List (String × ℚ)))).getD
        m₂ []).map Prod.fst → m₁ = m₂) :=
  by refine c4_league_redistribution _ ?_ ?_ <;> decide


end GData
